import Mathlib

/-!
Verification development for the SubFlix subtitle timing engine and SRT
interchange codec (`SubtitleEngine` in the content script).

Shallow embedding conventions:
* JavaScript numbers (seconds, offsets) are modelled as exact rationals `ℚ`;
  IEEE-754 rounding is abstracted away, `Math.floor` is `Int.floor`, the JS
  remainder `%` (sign of the dividend, truncated quotient) is `jsMod`.
* JavaScript strings are modelled as `String` / `List Char`; the regex
  operations used by the source (`split(/\n\s*\n/)`, the SRT timestamp
  regex, `trim`) are modelled operationally, character by character, with
  the leftmost-match / greedy-with-backtracking semantics of JS regexes.
* The engine object is the record `SubtitleEngine`; methods that mutate
  `this` take and return the record.
-/

/-- One subtitle cue: `{ start, end, text }` as produced by `parseSRT`. -/
structure Entry where
  start : ℚ
  stop : ℚ
  text : String
deriving DecidableEq, Repr

/-- The `end` field of the source sub object is called `stop` here because
`end` is a reserved word in Lean; everywhere below `stop` is the source's
`sub.end`. -/
def Entry.getEnd (s : Entry) : ℚ := s.stop

/-- The `SubtitleEngine` state: `subtitles`, `currentIndex`, `offset`,
`enabled`, `lastUpdateTime` exactly as initialised by the constructor. -/
structure SubtitleEngine where
  subtitles : List Entry
  currentIndex : Int
  offset : ℚ
  enabled : Bool
  lastUpdateTime : ℚ
deriving DecidableEq, Repr

/-- JS array indexing `a[i]` for an `Int` index: `some` element when
`0 ≤ i < a.length`, `none` (JS `undefined`) otherwise. -/
def getIdx (l : List Entry) (i : Int) : Option Entry :=
  if 0 ≤ i then l.get? i.toNat else none

/-- The loop of `_binarySearchSubtitle`: `left`/`right` are the JS integer
bounds, `mid = Math.floor((left+right)/2)` is integer division (the bounds
are non-negative whenever the source reaches this loop).  The `getIdx`
`none` branch is unreachable for the in-range bounds the source uses. -/
def binarySearchAux (l : List Entry) (time : ℚ) (left right : Int) :
    Option (Entry × Int) :=
  if _h : left ≤ right then
    let mid := (left + right) / 2
    match getIdx l mid with
    | some subtitle =>
      if subtitle.start ≤ time ∧ time ≤ subtitle.stop then
        some (subtitle, mid)
      else if time < subtitle.start then
        binarySearchAux l time left (mid - 1)
      else
        binarySearchAux l time (mid + 1) right
    | none => none
  else none
termination_by (right + 1 - left).toNat
decreasing_by
  all_goals omega

/-- `_binarySearchSubtitle(time)`: search the whole array. -/
def binarySearchSubtitle (e : SubtitleEngine) (time : ℚ) : Option (Entry × Int) :=
  binarySearchAux e.subtitles time 0 ((e.subtitles.length : Int) - 1)

/-- Final fallback of `getSubtitleAtTime`: run the binary search; on a hit
set `currentIndex` and return the subtitle, otherwise return `null`
leaving the state untouched. -/
def lookupFallback (e : SubtitleEngine) (adjustedTime : ℚ) :
    Option Entry × SubtitleEngine :=
  match binarySearchSubtitle e adjustedTime with
  | some (subtitle, index) => (some subtitle, { e with currentIndex := index })
  | none => (none, e)

/-- The "check previous subtitle" step of `getSubtitleAtTime` (the source
guards with `currentIndex - 1 >= 0`; `getIdx` additionally encodes the
upper bound, under which the source's array access is defined). -/
def lookupBack (e : SubtitleEngine) (adjustedTime : ℚ) :
    Option Entry × SubtitleEngine :=
  match getIdx e.subtitles (e.currentIndex - 1) with
  | some prev =>
    if prev.start ≤ adjustedTime ∧ adjustedTime ≤ prev.stop then
      (some prev, { e with currentIndex := e.currentIndex - 1 })
    else lookupFallback e adjustedTime
  | none => lookupFallback e adjustedTime

/-- The "check next subtitle" step of `getSubtitleAtTime` (source guard
`currentIndex + 1 < length`; `getIdx` additionally encodes `0 ≤ index`,
under which the source's array access is defined). -/
def lookupSteps (e : SubtitleEngine) (adjustedTime : ℚ) :
    Option Entry × SubtitleEngine :=
  match getIdx e.subtitles (e.currentIndex + 1) with
  | some next =>
    if next.start ≤ adjustedTime ∧ adjustedTime ≤ next.stop then
      (some next, { e with currentIndex := e.currentIndex + 1 })
    else lookupBack e adjustedTime
  | none => lookupBack e adjustedTime

/-- `getSubtitleAtTime(currentTime)`: early return on disabled/empty, then
cache-hit check, then the forward/backward steps, then binary search.  The
returned pair carries the result and the possibly-updated engine state. -/
def getSubtitleAtTime (e : SubtitleEngine) (currentTime : ℚ) :
    Option Entry × SubtitleEngine :=
  if e.enabled = false ∨ e.subtitles.length = 0 then (none, e)
  else
    let adjustedTime := currentTime + e.offset
    match getIdx e.subtitles e.currentIndex with
    | some current =>
      if current.start ≤ adjustedTime ∧ adjustedTime ≤ current.stop then
        (some current, e)
      else lookupSteps e adjustedTime
    | none => lookupSteps e adjustedTime

/-- Argument to `loadSubtitles`: either a JS array of subtitle objects or
any non-array value (all non-arrays behave identically there). -/
inductive LoadArg where
  | arr (entries : List Entry)
  | nonArray
deriving DecidableEq

/-- `loadSubtitles(subtitles)`: throws when the argument is not an array
(the `Except.error` component, state unchanged since the throw happens
before any assignment), otherwise replaces the array and resets the
cursor. -/
def loadSubtitles (e : SubtitleEngine) (arg : LoadArg) :
    Except String Unit × SubtitleEngine :=
  match arg with
  | .nonArray => (Except.error "Subtitles must be an array", e)
  | .arr entries =>
    (Except.ok (), { e with subtitles := entries, currentIndex := -1 })

/-- `clearSubtitles()`. -/
def clearSubtitles (e : SubtitleEngine) : SubtitleEngine :=
  { e with subtitles := [], currentIndex := -1 }

/-- `setOffset(offset)`: replace the scalar and reset the cache. -/
def setOffset (e : SubtitleEngine) (offset : ℚ) : SubtitleEngine :=
  { e with offset := offset, currentIndex := -1 }

/-- `getOffset()`. -/
def getOffset (e : SubtitleEngine) : ℚ := e.offset

/-- `setEnabled(enabled)`: writes only the flag. -/
def setEnabled (e : SubtitleEngine) (enabled : Bool) : SubtitleEngine :=
  { e with enabled := enabled }

/-- `isEnabled()`. -/
def isEnabled (e : SubtitleEngine) : Bool := e.enabled

/-- `getSubtitleCount()`. -/
def getSubtitleCount (e : SubtitleEngine) : Nat := e.subtitles.length

/-- `getSubtitlesInRange(startTime, endTime)`: pure linear filter, no
state mutation. -/
def getSubtitlesInRange (e : SubtitleEngine) (startTime endTime : ℚ) :
    List Entry :=
  e.subtitles.filter fun sub =>
    decide (sub.start ≤ endTime + e.offset) &&
    decide (startTime + e.offset ≤ sub.stop)

/-- `getTotalDuration()`: 0 when empty, else the last entry's `end`. -/
def getTotalDuration (e : SubtitleEngine) : ℚ :=
  match e.subtitles.getLast? with
  | none => 0
  | some lastSubtitle => lastSubtitle.stop

/-- JS `Math.round` (round half toward positive infinity). -/
def jsRound (q : ℚ) : Int := ⌊q + 1/2⌋

/-- Result object of `getStats()`.  The empty-array early return of the
source omits the `enabled` key, modelled by `enabled = none`. -/
structure SubtitleStats where
  count : Nat
  duration : ℚ
  averageLength : Int
  longestText : String
  offset : ℚ
  enabled : Option Bool
deriving DecidableEq

/-- `getStats()`: pure derived view, no state mutation.  JS `reduce` with
an explicit initial value folds over every element, including index 0. -/
def getStats (e : SubtitleEngine) : SubtitleStats :=
  match e.subtitles with
  | [] => ⟨0, 0, 0, "", e.offset, none⟩
  | h :: _ =>
    let totalLength : Nat :=
      e.subtitles.foldl (fun sum sub => sum + sub.text.length) 0
    let longest := e.subtitles.foldl
      (fun mx sub => if mx.text.length < sub.text.length then sub else mx) h
    ⟨e.subtitles.length, getTotalDuration e,
      jsRound ((totalLength : ℚ) / (e.subtitles.length : ℚ)),
      String.mk (longest.text.data.take 50) ++ "...", e.offset, some e.enabled⟩

/-- `reset()`: back to the constructor state. -/
def reset (_e : SubtitleEngine) : SubtitleEngine :=
  ⟨[], -1, 0, true, 0⟩

/-- The code points the JS regex `\s` and `String.prototype.trim` treat
as whitespace: tab, line feed, vertical tab, form feed, carriage return,
space, NBSP, Ogham space mark, the U+2000..U+200A spaces, line separator,
paragraph separator, narrow no-break space, medium mathematical space,
ideographic space and the BOM. -/
def jsSpaceChars : List Char :=
  [' ', '\t', '\n', '\r', '\x0b', '\x0c', '\u00A0', '\u1680',
   '\u2000', '\u2001', '\u2002', '\u2003', '\u2004', '\u2005', '\u2006',
   '\u2007', '\u2008', '\u2009', '\u200A', '\u2028', '\u2029', '\u202F',
   '\u205F', '\u3000', '\uFEFF']

/-- Character class of the JS regex `\s` / of `String.prototype.trim`. -/
def isJsSpace (c : Char) : Bool :=
  jsSpaceChars.contains c

/-- JS `String.prototype.trim`. -/
def jsTrim (cs : List Char) : List Char :=
  ((cs.dropWhile isJsSpace).reverse.dropWhile isJsSpace).reverse

/-- Index of the last `'\n'` in a list, if any. -/
def findLastNl : List Char → Option Nat
  | [] => none
  | c :: rest =>
    match findLastNl rest with
    | some k => some (k + 1)
    | none => if c = '\n' then some 0 else none

/-- Operational model of `content.split(/\n\s*\n/)`: scan left to right;
at each `'\n'`, the greedy `\s*` takes the maximal whitespace run that
follows and backtracks to the last `'\n'` inside it; if the run contains
no further `'\n'` there is no separator match at this position and the
character belongs to the current piece.  `acc` is the current piece,
reversed.  Separators (which have no capture group) are dropped, exactly
as JS `split` does. -/
def splitBlocksAux : List Char → List Char → List (List Char)
  | [], acc => [acc.reverse]
  | c :: rest, acc =>
    if c = '\n' then
      let run := rest.takeWhile isJsSpace
      match findLastNl run with
      | some k => acc.reverse :: splitBlocksAux (rest.drop (k + 1)) []
      | none => splitBlocksAux rest ('\n' :: acc)
    else splitBlocksAux rest (c :: acc)
termination_by cs _ => cs.length
decreasing_by
  all_goals simp [List.length_drop]
  all_goals omega

/-- JS `content.split(/\n\s*\n/)`. -/
def splitBlocks (cs : List Char) : List (List Char) :=
  splitBlocksAux cs []

/-- Fuel-indexed twin of `splitBlocksAux`, structurally recursive so that
the kernel can evaluate it on concrete strings; `splitBlocksAux_eq_fuel`
proves it agrees with the faithful model whenever the fuel covers the
input length. -/
def splitBlocksAuxF : Nat → List Char → List Char → List (List Char)
  | 0, _, acc => [acc.reverse]
  | fuel + 1, cs, acc =>
    match cs with
    | [] => [acc.reverse]
    | c :: rest =>
      if c = '\n' then
        let run := rest.takeWhile isJsSpace
        match findLastNl run with
        | some k => acc.reverse :: splitBlocksAuxF fuel (rest.drop (k + 1)) []
        | none => splitBlocksAuxF fuel rest ('\n' :: acc)
      else splitBlocksAuxF fuel rest (c :: acc)

/-- JS `block.split('\n')` (plain string separator, no collapsing). -/
def splitOnNl : List Char → List (List Char)
  | [] => [[]]
  | c :: rest =>
    let r := splitOnNl rest
    if c = '\n' then [] :: r
    else (c :: r.headD []) :: r.tail

/-- JS `lines.join('\n')`. -/
def nlJoin : List (List Char) → List Char
  | [] => []
  | [l] => l
  | l :: ls => l ++ '\n' :: nlJoin ls

/-- The regex class `\d`. -/
def isDigitChar (c : Char) : Bool := '0' ≤ c ∧ c ≤ '9'

/-- Match exactly `k` digits (`\d{k}`), returning the group and the rest. -/
def readDigits : Nat → List Char → Option (List Char × List Char)
  | 0, cs => some ([], cs)
  | k + 1, c :: cs =>
    if isDigitChar c then
      (readDigits k cs).map fun g => (c :: g.1, g.2)
    else none
  | _ + 1, [] => none

/-- Match one literal character. -/
def expectChar (c : Char) : List Char → Option (List Char)
  | d :: cs => if d = c then some cs else none
  | [] => none

/-- The eight captured groups of the SRT timestamp regex. -/
structure TsGroups where
  h1 : List Char
  m1 : List Char
  s1 : List Char
  ms1 : List Char
  h2 : List Char
  m2 : List Char
  s2 : List Char
  ms2 : List Char
deriving DecidableEq

/-- One side of the timestamp pattern,
`(\d{2}):(\d{2}):(\d{2}),(\d{3})`: four captured groups plus the rest
of the input. -/
def matchTimePart (cs : List Char) :
    Option ((List Char × List Char × List Char × List Char) × List Char) := do
  let (h, r) ← readDigits 2 cs
  let r ← expectChar ':' r
  let (m, r) ← readDigits 2 r
  let r ← expectChar ':' r
  let (s, r) ← readDigits 2 r
  let r ← expectChar ',' r
  let (ms, r) ← readDigits 3 r
  pure ((h, m, s, ms), r)

/-- The middle of the timestamp pattern, `\s*-->\s*`.  The greedy `\s*`
deterministically takes the maximal whitespace run because `-` is not
whitespace. -/
def matchArrow (cs : List Char) : Option (List Char) := do
  let r := cs.dropWhile isJsSpace
  let r ← expectChar '-' r
  let r ← expectChar '-' r
  let r ← expectChar '>' r
  pure (r.dropWhile isJsSpace)

/-- Attempt to match
`(\d{2}):(\d{2}):(\d{2}),(\d{3})\s*-->\s*(\d{2}):(\d{2}):(\d{2}),(\d{3})`
at the start of `cs`; anything after the final group is ignored (the
regex is unanchored). -/
def matchTsAt (cs : List Char) : Option TsGroups := do
  let (g1, r) ← matchTimePart cs
  let r ← matchArrow r
  let (g2, _r) ← matchTimePart r
  pure ⟨g1.1, g1.2.1, g1.2.2.1, g1.2.2.2, g2.1, g2.2.1, g2.2.2.1, g2.2.2.2⟩

/-- JS `lines[1].match(timestampRegex)`: try each start position left to
right (leftmost match). -/
def findTs : List Char → Option TsGroups
  | [] => none
  | c :: rest =>
    match matchTsAt (c :: rest) with
    | some g => some g
    | none => findTs rest

/-- JS `parseInt` on a non-empty all-digit string. -/
def parseIntDigits (cs : List Char) : Nat :=
  cs.foldl (fun a c => a * 10 + (c.toNat - 48)) 0

/-- `_parseTimestamp(hours, minutes, seconds, milliseconds)`:
`h*3600 + m*60 + s + ms/1000` with exact integer parsing per field. -/
def parseTimestampGroups (hours minutes seconds milliseconds : List Char) : ℚ :=
  (parseIntDigits hours : ℚ) * 3600 + (parseIntDigits minutes : ℚ) * 60 +
    (parseIntDigits seconds : ℚ) + (parseIntDigits milliseconds : ℚ) / 1000

/-- The body of the `parseSRT` loop for one block: trim, split into lines,
skip when fewer than 3 lines, match the timestamp on line index 1, join
lines 2+ with `'\n'`, trim the text, drop the block when the text is
empty.  Nothing in the source's `try` body can throw. -/
def parseBlock (block : List Char) : Option Entry :=
  let lines := splitOnNl (jsTrim block)
  if lines.length < 3 then none
  else
    match lines.get? 1 with
    | none => none
    | some line1 =>
      match findTs line1 with
      | none => none
      | some g =>
        let startTime := parseTimestampGroups g.h1 g.m1 g.s1 g.ms1
        let endTime := parseTimestampGroups g.h2 g.m2 g.s2 g.ms2
        let text := jsTrim (nlJoin (lines.drop 2))
        if text = [] then none
        else some ⟨startTime, endTime, String.mk text⟩

/-- `parseSRT(content)`: trim, split into blocks, parse each block,
collecting the successes in order (the `continue`-style skips make the
loop a `filterMap`). -/
def parseSRT (content : String) : List Entry :=
  (splitBlocks (jsTrim content.data)).filterMap parseBlock

/-- JS `String(x).padStart(w, '0')`. -/
def padStart (w : Nat) (s : String) : String :=
  String.mk (List.replicate (w - s.data.length) '0' ++ s.data)

/-- JS truncation toward zero, used by the JS `%` operator. -/
def jsTrunc (x : ℚ) : Int := if 0 ≤ x then ⌊x⌋ else ⌈x⌉

/-- The JS remainder operator `a % b` on numbers: `a - b * trunc(a / b)`
(result has the sign of the dividend). -/
def jsMod (a b : ℚ) : ℚ := a - b * (jsTrunc (a / b) : ℚ)

/-- `_formatTimestamp(seconds)`: decompose into `h:m:s,ms` with
`Math.floor` and `%`, zero-padding to 2/2/2/3 digits. -/
def formatTimestamp (seconds : ℚ) : String :=
  let hours : Int := ⌊seconds / 3600⌋
  let minutes : Int := ⌊jsMod seconds 3600 / 60⌋
  let secs : Int := ⌊jsMod seconds 60⌋
  let ms : Int := ⌊jsMod seconds 1 * 1000⌋
  padStart 2 (toString hours) ++ ":" ++ padStart 2 (toString minutes) ++ ":" ++
    padStart 2 (toString secs) ++ "," ++ padStart 3 (toString ms)

/-- `exportToSRT()`: for the `i`-th entry emit
`"${i+1}\n${ts} --> ${ts}\n${text}\n\n"`, concatenate and trim. -/
def exportToSRT (e : SubtitleEngine) : String :=
  String.mk (jsTrim ((e.subtitles.enum.map fun p =>
    toString (p.1 + 1) ++ "\n" ++ formatTimestamp p.2.start ++ " --> " ++
      formatTimestamp p.2.stop ++ "\n" ++ p.2.text ++ "\n\n").foldl
        (fun a b => a ++ b) "").data)

/-- The cursor invariant of the design: `currentIndex ∈ [-1, N-1]`. -/
def CursorInv (e : SubtitleEngine) : Prop :=
  -1 ≤ e.currentIndex ∧ e.currentIndex < (e.subtitles.length : Int)

instance : DecidablePred CursorInv := fun e => by
  unfold CursorInv; infer_instance

/-- Inclusive interval membership used by every containment check of the
engine: `entry.start <= t && t <= entry.end`. -/
def containsTime (s : Entry) (t : ℚ) : Prop := s.start ≤ t ∧ t ≤ s.stop

instance (s : Entry) (t : ℚ) : Decidable (containsTime s t) := by
  unfold containsTime; infer_instance

/-- The well-formedness invariant of the loaded sequence assumed by the
lookup design: per-entry ordered bounds and pairwise disjoint, ascending
intervals (with inclusive interval membership, non-overlap of `[a.start,
a.end]` and `[b.start, b.end]` with `a` before `b` is `a.end < b.start`;
ascending starts follow). -/
def SortedDisjoint (l : List Entry) : Prop :=
  (∀ s ∈ l, s.start ≤ s.stop) ∧ l.Pairwise fun a b => a.stop < b.start

instance : DecidablePred SortedDisjoint := fun l => by
  unfold SortedDisjoint; infer_instance

/-- A piece of text with no line break. -/
def NoNl (l : List Char) : Prop := '\n' ∉ l

/-- A line that is not blank: some character is not whitespace. -/
def NonBlank (l : List Char) : Prop := ∃ c ∈ l, isJsSpace c = false

instance : DecidablePred NoNl := fun l => by
  unfold NoNl; infer_instance

instance : DecidablePred NonBlank := fun l => by
  unfold NonBlank; infer_instance

/-- A time that is millisecond-quantized and non-negative (the spec data
model), with no upper bound. -/
def MsQuantNoBound (q : ℚ) : Prop := 0 ≤ q ∧ (q * 1000).den = 1

/-- A time that is millisecond-quantized, non-negative and below 100
hours (so that `_formatTimestamp` emits exactly two hour digits). -/
def MsQuant (q : ℚ) : Prop := 0 ≤ q ∧ q < 360000 ∧ (q * 1000).den = 1

/-- The original claim's conditions on an entry text: non-empty after
trimming and free of blank-line-only content (no line of the text is
whitespace-only). -/
def TextOkOrig (s : String) : Prop :=
  jsTrim s.data ≠ [] ∧ ∀ l ∈ splitOnNl s.data, NonBlank l

/-- Conditions on an entry text under which the SRT round-trip restores
it verbatim: trimming is the identity on it (no leading or trailing
whitespace) and no line of it is whitespace-only. -/
def GoodText (s : String) : Prop :=
  jsTrim s.data = s.data ∧ ∀ l ∈ splitOnNl s.data, NonBlank l

instance : DecidablePred MsQuantNoBound := fun q => by
  unfold MsQuantNoBound; infer_instance

instance : DecidablePred MsQuant := fun q => by
  unfold MsQuant; infer_instance

instance : DecidablePred TextOkOrig := fun s => by
  unfold TextOkOrig; infer_instance

instance : DecidablePred GoodText := fun s => by
  unfold GoodText; infer_instance

/-- The characters of the timestamp line `${fmt(start)} --> ${fmt(end)}`
emitted by `exportToSRT` for one entry. -/
def tsLine (a b : ℚ) : List Char :=
  (formatTimestamp a).data ++ " --> ".data ++ (formatTimestamp b).data

/-- The lines of the `i`-th exported SRT block (0-based `i`; the emitted
ordinal is `i+1`). -/
def blockLines (i : Nat) (s : Entry) : List (List Char) :=
  (Nat.repr (i + 1)).data :: tsLine s.start s.stop :: splitOnNl s.text.data

/-- The `i`-th exported SRT block, without the trailing blank-line
separator. -/
def blockBody (i : Nat) (s : Entry) : List Char :=
  nlJoin (blockLines i s)

/-- The raw concatenation built by the `exportToSRT` loop from entry
index `i` on (each block carries its trailing `"\n\n"`). -/
def concatBlocks : Nat → List Entry → List Char
  | _, [] => []
  | i, s :: rest => blockBody i s ++ '\n' :: '\n' :: concatBlocks (i + 1) rest

/-- The trimmed export text from entry index `i` on: blocks joined by
single blank-line separators, no trailing separator. -/
def concatBodies : Nat → List Entry → List Char
  | _, [] => []
  | i, s :: rest =>
    match rest with
    | [] => blockBody i s
    | _ :: _ => blockBody i s ++ '\n' :: '\n' :: concatBodies (i + 1) rest

/-- The expected block split of the export text from entry index `i`. -/
def blocksOf : Nat → List Entry → List (List Char)
  | _, [] => []
  | i, s :: rest => blockBody i s :: blocksOf (i + 1) rest

/-- Concrete engine used by witnesses: the spec Section 8 locality example
`[{0,2,"a"},{3,5,"b"},{6,8,"c"}]`, offset 0, enabled, fresh cursor. -/
def engA : SubtitleEngine :=
  ⟨[⟨0, 2, "a"⟩, ⟨3, 5, "b"⟩, ⟨6, 8, "c"⟩], -1, 0, true, 0⟩

/-- Concrete empty engine used by witnesses. -/
def engEmpty : SubtitleEngine := ⟨[], -1, 0, true, 0⟩

/-- Concrete engine used by the round-trip witness. -/
def engB : SubtitleEngine :=
  ⟨[⟨1, 4, "Hello"⟩, ⟨11/2, 33/4, "World"⟩], -1, 0, true, 0⟩

/-- Concrete engine exhibiting the two failures of the unrestricted
round-trip claim: a text with leading whitespace (comes back trimmed) and
an end time of 100 hours (formats as three hour digits, which the
two-digit timestamp regex then fails to match). -/
def engCex : SubtitleEngine :=
  ⟨[⟨0, 1, " a"⟩, ⟨2, 360000, "Hi"⟩], -1, 0, true, 0⟩

/-! ### Basic lemmas about the scanner -/

theorem takeWhile_length_le (p : Char → Bool) (l : List Char) :
    (l.takeWhile p).length ≤ l.length := by
  induction l with
  | nil => simp [List.takeWhile]
  | cons c rest ih =>
    simp only [List.takeWhile]
    cases p c
    · simp
    · simpa using ih

theorem splitBlocksAux_eq_fuel (fuel : Nat) :
    ∀ (cs acc : List Char), cs.length ≤ fuel →
      splitBlocksAux cs acc = splitBlocksAuxF fuel cs acc := by
  induction fuel using Nat.strong_induction_on with
  | _ fuel ih =>
    intro cs acc hlen
    match fuel, cs with
    | 0, [] => rw [splitBlocksAux.eq_def]; simp [splitBlocksAuxF]
    | f + 1, [] => rw [splitBlocksAux.eq_def]; simp [splitBlocksAuxF]
    | 0, c :: rest => simp at hlen
    | f + 1, c :: rest =>
      rw [splitBlocksAux.eq_def, splitBlocksAuxF]
      simp only [List.length_cons, Nat.add_le_add_iff_right] at hlen
      by_cases hc : c = '\n'
      · simp only [if_pos hc]
        cases hk : findLastNl (rest.takeWhile isJsSpace) with
        | some k =>
          dsimp only
          rw [ih f (by omega) _ []]
          simp only [List.length_drop]
          omega
        | none =>
          dsimp only
          exact ih f (by omega) rest _ hlen
      · simp only [if_neg hc]
        exact ih f (by omega) rest _ hlen

/-- Evaluation form of `parseSRT` for the kernel: route the block split
through the fuel-indexed scanner. -/
theorem parseSRT_eq_fuel (content : String) :
    parseSRT content =
      (splitBlocksAuxF (jsTrim content.data).length
        (jsTrim content.data) []).filterMap parseBlock := by
  unfold parseSRT splitBlocks
  rw [splitBlocksAux_eq_fuel _ _ _ (le_refl _)]

/-! ### The timing engine: binary search and lookup -/

theorem getIdx_eq_some_iff {l : List Entry} {i : Int} {s : Entry} :
    getIdx l i = some s ↔
      0 ≤ i ∧ ∃ h : i.toNat < l.length, l[i.toNat] = s := by
  unfold getIdx
  split
  · rename_i h0
    simp only [h0, true_and, List.get?_eq_getElem?]
    exact List.getElem?_eq_some
  · rename_i h0
    simp only [h0, false_and]
    simp

theorem containsTime_unique {l : List Entry} (hwf : SortedDisjoint l)
    {i j : Nat} (hi : i < l.length) (hj : j < l.length) {t : ℚ}
    (h1 : containsTime l[i] t) (h2 : containsTime l[j] t) :
    i = j := by
  rcases Nat.lt_trichotomy i j with hij | hij | hij
  · have := (List.pairwise_iff_getElem.mp hwf.2) i j hi hj hij
    exact absurd (lt_of_lt_of_le (lt_of_le_of_lt h1.2 this) h2.1)
      (not_lt_of_le le_rfl)
  · exact hij
  · have := (List.pairwise_iff_getElem.mp hwf.2) j i hj hi hij
    exact absurd (lt_of_lt_of_le (lt_of_le_of_lt h2.2 this) h1.1)
      (not_lt_of_le le_rfl)

theorem binarySearchAux_some {l : List Entry} {t : ℚ}
    {left right : Int} {s : Entry} {idx : Int}
    (h : binarySearchAux l t left right = some (s, idx)) :
    0 ≤ idx ∧ ∃ hl : idx.toNat < l.length, l[idx.toNat] = s ∧ containsTime s t := by
  induction left, right using binarySearchAux.induct l t with
  | case1 left right hlr mid sub hget hcont =>
    rw [binarySearchAux] at h
    simp only [dif_pos hlr, hget, if_pos hcont, Option.some.injEq,
      Prod.mk.injEq] at h
    obtain ⟨rfl, rfl⟩ := h
    obtain ⟨h0, hlt, hval⟩ := getIdx_eq_some_iff.mp hget
    exact ⟨h0, hlt, hval, hcont.1, hcont.2⟩
  | case2 left right hlr mid sub hget hcont hlt ih =>
    rw [binarySearchAux] at h
    simp only [dif_pos hlr, hget, if_neg hcont, if_pos hlt] at h
    exact ih h
  | case3 left right hlr mid sub hget hcont hlt ih =>
    rw [binarySearchAux] at h
    simp only [dif_pos hlr, hget, if_neg hcont, if_neg hlt] at h
    exact ih h
  | case4 left right hlr mid hget =>
    rw [binarySearchAux] at h
    simp only [dif_pos hlr, hget] at h
    exact Option.noConfusion h
  | case5 left right hlr =>
    rw [binarySearchAux] at h
    simp only [dif_neg hlr] at h
    exact Option.noConfusion h

theorem getIdx_eq_none_iff {l : List Entry} {i : Int} :
    getIdx l i = none ↔ i < 0 ∨ (l.length : Int) ≤ i := by
  unfold getIdx
  split
  · rename_i h0
    simp only [List.get?_eq_getElem?, List.getElem?_eq_none_iff]
    omega
  · rename_i h0
    simp only [eq_self_iff_true, true_iff]
    omega

theorem binarySearchAux_finds {l : List Entry} (hwf : SortedDisjoint l) {t : ℚ}
    {i : Nat} (hi : i < l.length) (hc : containsTime l[i] t)
    {left right : Int} (h0 : 0 ≤ left) (hr : right < (l.length : Int))
    (hli : left ≤ (i : Int)) (hir : (i : Int) ≤ right) :
    binarySearchAux l t left right = some (l[i], (i : Int)) := by
  induction left, right using binarySearchAux.induct l t with
  | case1 left right hlr mid sub hget hcont =>
    have hmid : mid = (left + right) / 2 := rfl
    obtain ⟨hm0, hmlt, hmval⟩ := getIdx_eq_some_iff.mp hget
    have heq : mid.toNat = i := by
      apply containsTime_unique hwf hmlt hi
      · rw [hmval]; exact ⟨hcont.1, hcont.2⟩
      · exact hc
    subst heq
    rw [binarySearchAux]
    simp only [dif_pos hlr, hget, if_pos hcont, Option.some.injEq, Prod.mk.injEq]
    exact ⟨hmval.symm, by omega⟩
  | case2 left right hlr mid sub hget hcont hlt ih =>
    have hmid : mid = (left + right) / 2 := rfl
    obtain ⟨hm0, hmlt, hmval⟩ := getIdx_eq_some_iff.mp hget
    have hne : mid.toNat ≠ i := by
      intro he
      subst he
      rw [hmval] at hc
      exact hcont ⟨hc.1, hc.2⟩
    have hilt : (i : Int) < mid := by
      rcases Nat.lt_or_ge i mid.toNat with h | h
      · omega
      · exfalso
        have hgt : mid.toNat < i := by omega
        have hp := (List.pairwise_iff_getElem.mp hwf.2) mid.toNat i hmlt hi hgt
        have hse : sub.start ≤ sub.stop := hwf.1 sub (hmval ▸ List.getElem_mem hmlt)
        rw [hmval] at hp
        exact absurd (lt_of_le_of_lt (le_trans hse (le_of_lt hp)) (lt_of_le_of_lt hc.1 hlt))
          (lt_irrefl _)
    rw [binarySearchAux]
    simp only [dif_pos hlr, hget, if_neg hcont, if_pos hlt]
    exact ih h0 (by omega) hli (by omega)
  | case3 left right hlr mid sub hget hcont hlt ih =>
    have hmid : mid = (left + right) / 2 := rfl
    obtain ⟨hm0, hmlt, hmval⟩ := getIdx_eq_some_iff.mp hget
    have hne : mid.toNat ≠ i := by
      intro he
      subst he
      rw [hmval] at hc
      exact hcont ⟨hc.1, hc.2⟩
    have hilt : mid < (i : Int) := by
      rcases Nat.lt_or_ge mid.toNat i with h | h
      · omega
      · exfalso
        have hgt : i < mid.toNat := by omega
        have hp := (List.pairwise_iff_getElem.mp hwf.2) i mid.toNat hi hmlt hgt
        rw [hmval] at hp
        exact hlt (lt_of_le_of_lt hc.2 hp)
    rw [binarySearchAux]
    simp only [dif_pos hlr, hget, if_neg hcont, if_neg hlt]
    exact ih (by omega) hr (by omega) hir
  | case4 left right hlr mid hget =>
    have hmid : mid = (left + right) / 2 := rfl
    rcases getIdx_eq_none_iff.mp hget with h | h <;> omega
  | case5 left right hlr =>
    exact absurd (le_trans hli hir) hlr

theorem lookupFallback_finds (e : SubtitleEngine) (hwf : SortedDisjoint e.subtitles)
    {t : ℚ} {i : Nat} (hi : i < e.subtitles.length)
    (hc : containsTime e.subtitles[i] t) :
    lookupFallback e t =
      (some e.subtitles[i], { e with currentIndex := (i : Int) }) := by
  unfold lookupFallback binarySearchSubtitle
  rw [binarySearchAux_finds hwf hi hc (by omega) (by omega) (by omega) (by omega)]

theorem lookupBack_finds (e : SubtitleEngine) (hwf : SortedDisjoint e.subtitles)
    {t : ℚ} {i : Nat} (hi : i < e.subtitles.length)
    (hc : containsTime e.subtitles[i] t) :
    lookupBack e t =
      (some e.subtitles[i], { e with currentIndex := (i : Int) }) := by
  unfold lookupBack
  cases hg : getIdx e.subtitles (e.currentIndex - 1) with
  | none => exact lookupFallback_finds e hwf hi hc
  | some prev =>
    obtain ⟨h0, hlt, hval⟩ := getIdx_eq_some_iff.mp hg
    by_cases hcp : prev.start ≤ t ∧ t ≤ prev.stop
    · have heq : (e.currentIndex - 1).toNat = i := by
        apply containsTime_unique hwf hlt hi
        · rw [hval]; exact ⟨hcp.1, hcp.2⟩
        · exact hc
      simp only [if_pos hcp]
      subst heq
      have hcast : (((e.currentIndex - 1).toNat : Int)) = e.currentIndex - 1 := by
        omega
      rw [← hval, hcast]
    · simp only [if_neg hcp]
      exact lookupFallback_finds e hwf hi hc

theorem lookupSteps_finds (e : SubtitleEngine) (hwf : SortedDisjoint e.subtitles)
    {t : ℚ} {i : Nat} (hi : i < e.subtitles.length)
    (hc : containsTime e.subtitles[i] t) :
    lookupSteps e t =
      (some e.subtitles[i], { e with currentIndex := (i : Int) }) := by
  unfold lookupSteps
  cases hg : getIdx e.subtitles (e.currentIndex + 1) with
  | none => exact lookupBack_finds e hwf hi hc
  | some next =>
    obtain ⟨h0, hlt, hval⟩ := getIdx_eq_some_iff.mp hg
    by_cases hcp : next.start ≤ t ∧ t ≤ next.stop
    · have heq : (e.currentIndex + 1).toNat = i := by
        apply containsTime_unique hwf hlt hi
        · rw [hval]; exact ⟨hcp.1, hcp.2⟩
        · exact hc
      simp only [if_pos hcp]
      subst heq
      have hcast : (((e.currentIndex + 1).toNat : Int)) = e.currentIndex + 1 := by
        omega
      rw [← hval, hcast]
    · simp only [if_neg hcp]
      exact lookupBack_finds e hwf hi hc

theorem getSubtitleAtTime_finds (e : SubtitleEngine)
    (hwf : SortedDisjoint e.subtitles) (hen : e.enabled = true)
    {t : ℚ} {i : Nat} (hi : i < e.subtitles.length)
    (hc : containsTime e.subtitles[i] (t + e.offset)) :
    getSubtitleAtTime e t =
      (some e.subtitles[i], { e with currentIndex := (i : Int) }) := by
  unfold getSubtitleAtTime
  have hguard : ¬(e.enabled = false ∨ e.subtitles.length = 0) := by
    push_neg
    exact ⟨by simp [hen], by omega⟩
  rw [if_neg hguard]
  cases hg : getIdx e.subtitles e.currentIndex with
  | none => exact lookupSteps_finds e hwf hi hc
  | some current =>
    obtain ⟨h0, hlt, hval⟩ := getIdx_eq_some_iff.mp hg
    by_cases hcp : current.start ≤ t + e.offset ∧ t + e.offset ≤ current.stop
    · have heq : e.currentIndex.toNat = i := by
        apply containsTime_unique hwf hlt hi
        · rw [hval]; exact ⟨hcp.1, hcp.2⟩
        · exact hc
      simp only [if_pos hcp]
      subst heq
      have hcast : ((e.currentIndex.toNat : Int)) = e.currentIndex := by omega
      rw [← hval, hcast]
    · simp only [if_neg hcp]
      exact lookupSteps_finds e hwf hi hc

theorem lookupFallback_none (e : SubtitleEngine) {t : ℚ}
    (h : ∀ (j : Nat) (hj : j < e.subtitles.length),
      ¬ containsTime e.subtitles[j] t) :
    lookupFallback e t = (none, e) := by
  unfold lookupFallback binarySearchSubtitle
  cases hb : binarySearchAux e.subtitles t 0 ((e.subtitles.length : Int) - 1) with
  | none => rfl
  | some p =>
    obtain ⟨s, idx⟩ := p
    obtain ⟨h0, hlt, hval, hcont⟩ := binarySearchAux_some hb
    exact absurd hcont (hval ▸ h idx.toNat hlt)

theorem lookupBack_none (e : SubtitleEngine) {t : ℚ}
    (h : ∀ (j : Nat) (hj : j < e.subtitles.length),
      ¬ containsTime e.subtitles[j] t) :
    lookupBack e t = (none, e) := by
  unfold lookupBack
  cases hg : getIdx e.subtitles (e.currentIndex - 1) with
  | none => exact lookupFallback_none e h
  | some prev =>
    obtain ⟨h0, hlt, hval⟩ := getIdx_eq_some_iff.mp hg
    have hcp : ¬(prev.start ≤ t ∧ t ≤ prev.stop) := hval ▸ h _ hlt
    simp only [if_neg hcp]
    exact lookupFallback_none e h

theorem lookupSteps_none (e : SubtitleEngine) {t : ℚ}
    (h : ∀ (j : Nat) (hj : j < e.subtitles.length),
      ¬ containsTime e.subtitles[j] t) :
    lookupSteps e t = (none, e) := by
  unfold lookupSteps
  cases hg : getIdx e.subtitles (e.currentIndex + 1) with
  | none => exact lookupBack_none e h
  | some next =>
    obtain ⟨h0, hlt, hval⟩ := getIdx_eq_some_iff.mp hg
    have hcp : ¬(next.start ≤ t ∧ t ≤ next.stop) := hval ▸ h _ hlt
    simp only [if_neg hcp]
    exact lookupBack_none e h

theorem getSubtitleAtTime_none (e : SubtitleEngine) {t : ℚ}
    (h : ∀ (j : Nat) (hj : j < e.subtitles.length),
      ¬ containsTime e.subtitles[j] (t + e.offset)) :
    getSubtitleAtTime e t = (none, e) := by
  unfold getSubtitleAtTime
  by_cases hguard : e.enabled = false ∨ e.subtitles.length = 0
  · rw [if_pos hguard]
  · rw [if_neg hguard]
    cases hg : getIdx e.subtitles e.currentIndex with
    | none => exact lookupSteps_none e h
    | some current =>
      obtain ⟨h0, hlt, hval⟩ := getIdx_eq_some_iff.mp hg
      have hcp : ¬(current.start ≤ t + e.offset ∧ t + e.offset ≤ current.stop) :=
        hval ▸ h _ hlt
      simp only [if_neg hcp]
      exact lookupSteps_none e h

theorem lookupFallback_cursorInv (e : SubtitleEngine) (h : CursorInv e) (t : ℚ) :
    CursorInv (lookupFallback e t).2 := by
  unfold lookupFallback binarySearchSubtitle
  cases hb : binarySearchAux e.subtitles t 0 ((e.subtitles.length : Int) - 1) with
  | none => exact h
  | some p =>
    obtain ⟨s, idx⟩ := p
    obtain ⟨h0, hlt, hval, hcont⟩ := binarySearchAux_some hb
    unfold CursorInv
    dsimp only
    omega

theorem lookupBack_cursorInv (e : SubtitleEngine) (h : CursorInv e) (t : ℚ) :
    CursorInv (lookupBack e t).2 := by
  unfold lookupBack
  cases hg : getIdx e.subtitles (e.currentIndex - 1) with
  | none => exact lookupFallback_cursorInv e h t
  | some prev =>
    obtain ⟨h0, hlt, hval⟩ := getIdx_eq_some_iff.mp hg
    by_cases hcp : prev.start ≤ t ∧ t ≤ prev.stop
    · simp only [if_pos hcp]
      unfold CursorInv
      dsimp only
      omega
    · simp only [if_neg hcp]
      exact lookupFallback_cursorInv e h t

theorem lookupSteps_cursorInv (e : SubtitleEngine) (h : CursorInv e) (t : ℚ) :
    CursorInv (lookupSteps e t).2 := by
  unfold lookupSteps
  cases hg : getIdx e.subtitles (e.currentIndex + 1) with
  | none => exact lookupBack_cursorInv e h t
  | some next =>
    obtain ⟨h0, hlt, hval⟩ := getIdx_eq_some_iff.mp hg
    by_cases hcp : next.start ≤ t ∧ t ≤ next.stop
    · simp only [if_pos hcp]
      unfold CursorInv
      dsimp only
      omega
    · simp only [if_neg hcp]
      exact lookupBack_cursorInv e h t

theorem getSubtitleAtTime_cursorInv (e : SubtitleEngine) (h : CursorInv e)
    (t : ℚ) : CursorInv (getSubtitleAtTime e t).2 := by
  unfold getSubtitleAtTime
  by_cases hguard : e.enabled = false ∨ e.subtitles.length = 0
  · rw [if_pos hguard]; exact h
  · rw [if_neg hguard]
    cases hg : getIdx e.subtitles e.currentIndex with
    | none => exact lookupSteps_cursorInv e h _
    | some current =>
      by_cases hcp : current.start ≤ t + e.offset ∧ t + e.offset ≤ current.stop
      · simp only [if_pos hcp]; exact h
      · simp only [if_neg hcp]
        exact lookupSteps_cursorInv e h _

/-! ### Claims about the timing engine -/

/-- C1: for an engine whose loaded sequence is sorted ascending and
non-overlapping, enabled, with the cursor at any valid value in
`[-1, N-1]`, after `setOffset(offset)`, for every entry and every `t` in
`[entry.start, entry.end]`, `getSubtitleAtTime (t - offset)` returns that
entry.  The proof goes through `getSubtitleAtTime_finds`, which treats
the cache-hit, forward-step, backward-step and binary-search paths
uniformly, so the result holds regardless of which path resolves the
query. -/
theorem claim_C1_containment (e : SubtitleEngine) (offset : ℚ)
    (hwf : SortedDisjoint e.subtitles) (hen : e.enabled = true)
    (_hcur : CursorInv e) {i : Nat} (hi : i < e.subtitles.length) {t : ℚ}
    (hc : containsTime e.subtitles[i] t) :
    (getSubtitleAtTime (setOffset e offset) (t - offset)).1 =
      some e.subtitles[i] := by
  have hc' : containsTime e.subtitles[i] ((t - offset) + (setOffset e offset).offset) := by
    have harith : (t - offset) + (setOffset e offset).offset = t := by
      show (t - offset) + offset = t
      ring
    rw [harith]
    exact hc
  rw [getSubtitleAtTime_finds (setOffset e offset) hwf hen hi hc']
  rfl


/-- C3: for a sorted, non-overlapping loaded sequence, for every `t` with
`t + offset` strictly between `entries[i].end` and `entries[i+1].start`,
the lookup returns `none` and the whole engine state — in particular the
cursor — is unchanged (the failed search does not reset it to `-1`). -/
theorem claim_C3_gap (e : SubtitleEngine) (hwf : SortedDisjoint e.subtitles)
    (_hen : e.enabled = true) {i : Nat} (hi1 : i + 1 < e.subtitles.length)
    {t : ℚ}
    (hgap1 : e.subtitles[i].stop < t + e.offset)
    (hgap2 : t + e.offset < e.subtitles[i+1].start) :
    getSubtitleAtTime e t = (none, e) := by
  apply getSubtitleAtTime_none
  intro j hj hcont
  rcases le_or_lt j i with hji | hji
  · have hstop : e.subtitles[j].stop ≤ e.subtitles[i].stop := by
      rcases Nat.lt_or_ge j i with h | h
      · have hp := (List.pairwise_iff_getElem.mp hwf.2) j i (by omega) (by omega) h
        exact le_trans (le_of_lt hp) (hwf.1 _ (List.getElem_mem (by omega)))
      · have : j = i := by omega
        subst this
        exact le_refl _
    exact absurd (le_trans hcont.2 hstop) (not_le_of_lt hgap1)
  · have hstart : e.subtitles[i+1].start ≤ e.subtitles[j].start := by
      rcases Nat.lt_or_ge (i+1) j with h | h
      · have hp := (List.pairwise_iff_getElem.mp hwf.2) (i+1) j (by omega) hj h
        exact le_trans (hwf.1 _ (List.getElem_mem (by omega))) (le_of_lt hp)
      · have : j = i + 1 := by omega
        subst this
        exact le_refl _
    exact absurd (lt_of_lt_of_le hgap2 (le_trans hstart hcont.1))
      (lt_irrefl _)


/-- C5: `loadSubtitles` fails (raises, modelled by the `Except.error`
result) exactly on a non-array argument, leaving every engine field
unchanged (the second component is the untouched state); for any array —
with no range or ordering checks whatsoever — it replaces the sequence
wholesale and resets the cursor to `-1`. -/
theorem claim_C5_load (e : SubtitleEngine) :
    (∀ l : List Entry, loadSubtitles e (.arr l) =
      (Except.ok (), { e with subtitles := l, currentIndex := -1 })) ∧
    loadSubtitles e .nonArray =
      (Except.error "Subtitles must be an array", e) :=
  ⟨fun _ => rfl, rfl⟩

/-- C6: every state-returning engine operation preserves the cursor
invariant `currentIndex ∈ [-1, N-1]`.  (`getSubtitlesInRange` and
`getStats` are modelled as pure functions — the source mutates nothing in
them — so they preserve every state invariant by construction and need no
conjunct here.) -/
theorem claim_C6_cursor (e : SubtitleEngine) (h : CursorInv e) :
    (∀ a, CursorInv (loadSubtitles e a).2) ∧
    CursorInv (clearSubtitles e) ∧
    (∀ o, CursorInv (setOffset e o)) ∧
    (∀ b, CursorInv (setEnabled e b)) ∧
    (∀ t, CursorInv (getSubtitleAtTime e t).2) ∧
    CursorInv (reset e) := by
  refine ⟨?_, ?_, ?_, ?_, ?_, ?_⟩
  · intro a
    cases a with
    | nonArray => exact h
    | arr l =>
      unfold loadSubtitles CursorInv
      dsimp only
      omega
  · unfold clearSubtitles CursorInv
    dsimp only
    omega
  · intro o
    unfold setOffset CursorInv
    dsimp only
    have := h.1
    have := h.2
    omega
  · intro b
    exact h
  · intro t
    exact getSubtitleAtTime_cursorInv e h t
  · unfold reset CursorInv
    dsimp only
    omega

theorem claim_C6_cursor_witness :
    CursorInv (getSubtitleAtTime engA 1).2 ∧ CursorInv (setOffset engA 5) :=
  ⟨(claim_C6_cursor engA (by decide)).2.2.2.2.1 1,
   (claim_C6_cursor engA (by decide)).2.2.1 5⟩

/-- C7: `setOffset(o)` writes the offset, resets the cursor to `-1` and
leaves the sequence and enabled flag unchanged; consequently a lookup
performed immediately afterwards is governed solely by the new offset:
it returns the entry containing `t + o` when one exists, and `none` when
no entry contains `t + o` — never a stale cache hit. -/
theorem claim_C7_setOffset (e : SubtitleEngine) (o : ℚ)
    (hwf : SortedDisjoint e.subtitles) (hen : e.enabled = true) :
    (setOffset e o).offset = o ∧
    (setOffset e o).currentIndex = -1 ∧
    (setOffset e o).subtitles = e.subtitles ∧
    (setOffset e o).enabled = e.enabled ∧
    (∀ (t : ℚ) (i : Nat) (hi : i < e.subtitles.length),
      containsTime e.subtitles[i] (t + o) →
      (getSubtitleAtTime (setOffset e o) t).1 = some e.subtitles[i]) ∧
    (∀ t : ℚ, (∀ (j : Nat) (hj : j < e.subtitles.length),
        ¬ containsTime e.subtitles[j] (t + o)) →
      (getSubtitleAtTime (setOffset e o) t).1 = none) := by
  refine ⟨rfl, rfl, rfl, rfl, ?_, ?_⟩
  · intro t i hi hc
    rw [getSubtitleAtTime_finds (setOffset e o) hwf hen hi hc]
    rfl
  · intro t hnone
    rw [getSubtitleAtTime_none (setOffset e o) hnone]


/-- C8: `setEnabled(flag)` writes only the enabled flag (in particular it
does not reset the cursor); with the engine disabled the lookup returns
`none` for every playback time and mutates nothing, and the same early
return with unchanged state fires for an empty sequence. -/
theorem claim_C8_setEnabled (e : SubtitleEngine) (b : Bool) (t : ℚ) :
    setEnabled e b = { e with enabled := b } ∧
    getSubtitleAtTime (setEnabled e false) t = (none, setEnabled e false) ∧
    (e.subtitles = [] → getSubtitleAtTime e t = (none, e)) := by
  refine ⟨rfl, ?_, ?_⟩
  · unfold getSubtitleAtTime
    exact if_pos (Or.inl (by rfl))
  · intro he
    unfold getSubtitleAtTime
    exact if_pos (Or.inr (by simp [he]))

theorem claim_C8_setEnabled_witness :
    getSubtitleAtTime engEmpty 1 = (none, engEmpty) :=
  (claim_C8_setEnabled engEmpty true 1).2.2 rfl

section
attribute [local semireducible] Rat.add Rat.mul Rat.inv Rat.sub

theorem claim_C1_containment_witness :
    (getSubtitleAtTime (setOffset engA 1) (7/2 - 1)).1 = some ⟨3, 5, "b"⟩ :=
  claim_C1_containment engA 1 (by decide) (by decide) (by decide)
    (i := 1) (by decide) (t := 7/2) (by decide)

theorem claim_C3_gap_witness :
    getSubtitleAtTime engA (5/2) = (none, engA) :=
  claim_C3_gap engA (by decide) (by decide) (i := 0) (by decide)
    (by decide) (by decide)

theorem claim_C7_setOffset_witness :
    (getSubtitleAtTime (setOffset engA (-3)) (13/2)).1 = some ⟨3, 5, "b"⟩ :=
  (claim_C7_setOffset engA (-3) (by decide) (by decide)).2.2.2.2.1
    (13/2) 1 (by decide) (by decide)

end

/-! ### The codec: line splitting and joining -/

theorem splitOnNl_cons_nl (rest : List Char) :
    splitOnNl ('\n' :: rest) = [] :: splitOnNl rest := by
  simp [splitOnNl]

theorem splitOnNl_cons_of_ne {c : Char} (h : c ≠ '\n') (rest : List Char) :
    splitOnNl (c :: rest) =
      (c :: (splitOnNl rest).headD []) :: (splitOnNl rest).tail := by
  simp [splitOnNl, if_neg h]

theorem splitOnNl_ne_nil (cs : List Char) : splitOnNl cs ≠ [] := by
  cases cs with
  | nil => simp [splitOnNl]
  | cons c rest =>
    by_cases hc : c = '\n'
    · subst hc; rw [splitOnNl_cons_nl]; simp
    · rw [splitOnNl_cons_of_ne hc]; simp

theorem nlJoin_splitOnNl (cs : List Char) : nlJoin (splitOnNl cs) = cs := by
  induction cs with
  | nil => rfl
  | cons c rest ih =>
    by_cases hc : c = '\n'
    · subst hc
      rw [splitOnNl_cons_nl]
      cases hr : splitOnNl rest with
      | nil => exact absurd hr (splitOnNl_ne_nil rest)
      | cons a as =>
        rw [hr] at ih
        show nlJoin ([] :: a :: as) = '\n' :: rest
        unfold nlJoin
        rw [show nlJoin (a :: as) = rest from ih]
        rfl
    · rw [splitOnNl_cons_of_ne hc]
      cases hr : splitOnNl rest with
      | nil => exact absurd hr (splitOnNl_ne_nil rest)
      | cons a as =>
        rw [hr] at ih
        cases as with
        | nil =>
          show nlJoin [c :: a] = c :: rest
          unfold nlJoin at ih ⊢
          rw [List.cons.injEq]
          exact ⟨rfl, ih⟩
        | cons b bs =>
          show nlJoin ((c :: a) :: b :: bs) = c :: rest
          unfold nlJoin at ih ⊢
          rw [← ih]
          rfl

theorem splitOnNl_noNl {a : List Char} (h : NoNl a) : splitOnNl a = [a] := by
  induction a with
  | nil => rfl
  | cons c rest ih =>
    have hc : c ≠ '\n' := fun he => h (he ▸ List.mem_cons_self c rest)
    have hr : NoNl rest := fun hm => h (List.mem_cons_of_mem c hm)
    rw [splitOnNl_cons_of_ne hc, ih hr]
    rfl

theorem splitOnNl_append {a : List Char} (h : NoNl a) (rest : List Char) :
    splitOnNl (a ++ '\n' :: rest) = a :: splitOnNl rest := by
  induction a with
  | nil =>
    show splitOnNl ('\n' :: rest) = [] :: splitOnNl rest
    exact splitOnNl_cons_nl rest
  | cons c a' ih =>
    have hc : c ≠ '\n' := fun he => h (he ▸ List.mem_cons_self c a')
    have ha : NoNl a' := fun hm => h (List.mem_cons_of_mem c hm)
    show splitOnNl (c :: (a' ++ '\n' :: rest)) = (c :: a') :: splitOnNl rest
    rw [splitOnNl_cons_of_ne hc, ih ha]
    rfl

theorem noNl_of_mem_splitOnNl {cs l : List Char} (h : l ∈ splitOnNl cs) :
    NoNl l := by
  induction cs generalizing l with
  | nil =>
    simp only [splitOnNl, List.mem_singleton] at h
    subst h
    exact List.not_mem_nil '\n'
  | cons c rest ih =>
    by_cases hc : c = '\n'
    · subst hc
      rw [splitOnNl_cons_nl] at h
      rcases List.mem_cons.mp h with he | hm
      · subst he; exact List.not_mem_nil '\n'
      · exact ih hm
    · rw [splitOnNl_cons_of_ne hc] at h
      cases hr : splitOnNl rest with
      | nil => exact absurd hr (splitOnNl_ne_nil rest)
      | cons a as =>
        rw [hr] at h
        simp only [List.headD_cons, List.tail_cons] at h
        rcases List.mem_cons.mp h with he | hm
        · subst he
          intro hmem
          rcases List.mem_cons.mp hmem with he2 | hm2
          · exact hc he2.symm
          · exact ih (show a ∈ splitOnNl rest by rw [hr]; exact List.mem_cons_self a as) hm2
        · exact ih (show l ∈ splitOnNl rest by rw [hr]; exact List.mem_cons_of_mem a hm)

theorem dropWhile_eq_self_of_head {p : Char → Bool} {l : List Char}
    (h : ∀ c, l.head? = some c → p c = false) : l.dropWhile p = l := by
  cases l with
  | nil => rfl
  | cons c rest =>
    rw [List.dropWhile_cons, h c rfl]
    simp

theorem dropWhile_append_all {p : Char → Bool} {a : List Char}
    (b : List Char) (h : ∀ c ∈ a, p c = true) :
    (a ++ b).dropWhile p = b.dropWhile p := by
  induction a with
  | nil => rfl
  | cons c a' ih =>
    rw [List.cons_append, List.dropWhile_cons, h c (List.mem_cons_self c a')]
    exact ih fun d hd => h d (List.mem_cons_of_mem c hd)

theorem jsTrim_eq_self {cs : List Char}
    (h1 : ∀ c, cs.head? = some c → isJsSpace c = false)
    (h2 : ∀ c, cs.getLast? = some c → isJsSpace c = false) :
    jsTrim cs = cs := by
  unfold jsTrim
  rw [dropWhile_eq_self_of_head h1]
  rw [dropWhile_eq_self_of_head fun c hc =>
    h2 c (by rwa [← List.head?_reverse])]
  exact List.reverse_reverse cs

theorem jsTrim_append_sep {x : List Char} (hne : x ≠ [])
    (h1 : ∀ c, x.head? = some c → isJsSpace c = false)
    (h2 : ∀ c, x.getLast? = some c → isJsSpace c = false) :
    jsTrim (x ++ ['\n', '\n']) = x := by
  unfold jsTrim
  have hd : (x ++ ['\n', '\n']).dropWhile isJsSpace = x ++ ['\n', '\n'] := by
    apply dropWhile_eq_self_of_head
    intro c hc
    cases x with
    | nil => exact absurd rfl hne
    | cons c0 x' =>
      rw [List.cons_append, List.head?_cons, Option.some.injEq] at hc
      subst hc
      exact h1 c0 rfl
  rw [hd, List.reverse_append]
  show (List.dropWhile isJsSpace (['\n', '\n'] ++ x.reverse)).reverse = x
  rw [dropWhile_append_all x.reverse (by decide)]
  rw [dropWhile_eq_self_of_head fun c hc =>
    h2 c (by rwa [← List.head?_reverse])]
  exact List.reverse_reverse x

/-! ### The codec: the blank-line block scanner -/

theorem sb_nil (acc : List Char) : splitBlocksAux [] acc = [acc.reverse] := by
  rw [splitBlocksAux.eq_def]

theorem sb_cons_other {c : Char} (h : c ≠ '\n') (rest acc : List Char) :
    splitBlocksAux (c :: rest) acc = splitBlocksAux rest (c :: acc) := by
  rw [splitBlocksAux.eq_def]
  dsimp only
  rw [if_neg h]

theorem sb_cons_nl_no_split {rest : List Char}
    (h : findLastNl (rest.takeWhile isJsSpace) = none) (acc : List Char) :
    splitBlocksAux ('\n' :: rest) acc = splitBlocksAux rest ('\n' :: acc) := by
  rw [splitBlocksAux.eq_def]
  dsimp only
  rw [if_pos rfl, h]

theorem sb_sep {c : Char} (hc : isJsSpace c = false) (rest acc : List Char) :
    splitBlocksAux ('\n' :: '\n' :: c :: rest) acc =
      acc.reverse :: splitBlocksAux (c :: rest) [] := by
  rw [splitBlocksAux.eq_def]
  dsimp only
  rw [if_pos rfl]
  have ht : List.takeWhile isJsSpace ('\n' :: c :: rest) = ['\n'] := by
    rw [List.takeWhile_cons]
    simp only [show isJsSpace '\n' = true from rfl, if_true]
    rw [List.takeWhile_cons]
    simp [hc]
  rw [ht]
  rfl

theorem findLastNl_eq_none {l : List Char} (h : '\n' ∉ l) :
    findLastNl l = none := by
  induction l with
  | nil => rfl
  | cons c rest ih =>
    have hcne : c ≠ '\n' := fun he => h (by rw [he]; exact List.mem_cons_self _ _)
    unfold findLastNl
    rw [ih fun hm => h (List.mem_cons_of_mem c hm)]
    rw [if_neg hcne]

theorem nl_not_mem_takeWhile_append {l : List Char} (hnb : NonBlank l)
    (hnl : NoNl l) (r : List Char) :
    '\n' ∉ (l ++ r).takeWhile isJsSpace := by
  induction l with
  | nil =>
    obtain ⟨c, hc, _⟩ := hnb
    exact absurd hc (List.not_mem_nil c)
  | cons x l' ih =>
    have hxn : x ≠ '\n' := fun he => hnl (by rw [he]; exact List.mem_cons_self _ _)
    rw [List.cons_append, List.takeWhile_cons]
    by_cases hx : isJsSpace x = true
    · rw [hx]
      simp only [if_true]
      intro hm
      rcases List.mem_cons.mp hm with he | hm2
      · exact hxn he.symm
      · obtain ⟨c, hc, hcw⟩ := hnb
        have hcl : c ∈ l' := by
          rcases List.mem_cons.mp hc with hce | hcm
          · exfalso
            rw [hce, hx] at hcw
            exact Bool.noConfusion hcw
          · exact hcm
        exact ih ⟨c, hcl, hcw⟩ (fun hm3 => hnl (List.mem_cons_of_mem x hm3)) hm2
    · simp only [Bool.not_eq_true] at hx
      rw [hx]
      simp

theorem sb_scan_line {l : List Char} (h : NoNl l) (rest acc : List Char) :
    splitBlocksAux (l ++ rest) acc = splitBlocksAux rest (l.reverse ++ acc) := by
  induction l generalizing acc with
  | nil => rfl
  | cons c l' ih =>
    have hc : c ≠ '\n' := fun he => h (he ▸ List.mem_cons_self c l')
    have hl : NoNl l' := fun hm => h (List.mem_cons_of_mem c hm)
    rw [List.cons_append, sb_cons_other hc, ih hl]
    simp [List.append_assoc]

theorem nlJoin_head_append (l2 : List Char) (ls2 : List (List Char)) :
    ∃ r, nlJoin (l2 :: ls2) = l2 ++ r := by
  cases ls2 with
  | nil => exact ⟨[], (List.append_nil l2).symm⟩
  | cons b bs => exact ⟨'\n' :: nlJoin (b :: bs), rfl⟩

theorem sb_block_final {lines : List (List Char)} (hne : lines ≠ [])
    (hg : ∀ l ∈ lines, NoNl l ∧ NonBlank l) (acc : List Char) :
    splitBlocksAux (nlJoin lines) acc = [acc.reverse ++ nlJoin lines] := by
  induction lines generalizing acc with
  | nil => exact absurd rfl hne
  | cons l ls ih =>
    have hl := hg l (List.mem_cons_self l ls)
    cases ls with
    | nil =>
      show splitBlocksAux l acc = [acc.reverse ++ l]
      have hs := sb_scan_line hl.1 [] acc
      rw [List.append_nil] at hs
      rw [hs, sb_nil]
      simp
    | cons l2 ls2 =>
      have hl2 := hg l2 (List.mem_cons_of_mem l (List.mem_cons_self l2 ls2))
      show splitBlocksAux (l ++ '\n' :: nlJoin (l2 :: ls2)) acc =
        [acc.reverse ++ (l ++ '\n' :: nlJoin (l2 :: ls2))]
      rw [sb_scan_line hl.1]
      have hnon : findLastNl ((nlJoin (l2 :: ls2)).takeWhile isJsSpace) = none := by
        obtain ⟨r, hr⟩ := nlJoin_head_append l2 ls2
        rw [hr]
        exact findLastNl_eq_none (nl_not_mem_takeWhile_append hl2.2 hl2.1 r)
      rw [sb_cons_nl_no_split hnon]
      rw [ih (by simp) (fun x hx => hg x (List.mem_cons_of_mem l hx))]
      simp [List.append_assoc]

theorem sb_block_sep {lines : List (List Char)} (hne : lines ≠ [])
    (hg : ∀ l ∈ lines, NoNl l ∧ NonBlank l) {c : Char}
    (hc : isJsSpace c = false) (rest acc : List Char) :
    splitBlocksAux (nlJoin lines ++ '\n' :: '\n' :: c :: rest) acc =
      (acc.reverse ++ nlJoin lines) :: splitBlocksAux (c :: rest) [] := by
  induction lines generalizing acc with
  | nil => exact absurd rfl hne
  | cons l ls ih =>
    have hl := hg l (List.mem_cons_self l ls)
    cases ls with
    | nil =>
      show splitBlocksAux (l ++ '\n' :: '\n' :: c :: rest) acc =
        (acc.reverse ++ l) :: splitBlocksAux (c :: rest) []
      rw [sb_scan_line hl.1, sb_sep hc]
      simp
    | cons l2 ls2 =>
      have hl2 := hg l2 (List.mem_cons_of_mem l (List.mem_cons_self l2 ls2))
      show splitBlocksAux ((l ++ '\n' :: nlJoin (l2 :: ls2)) ++ '\n' :: '\n' :: c :: rest) acc = _
      rw [List.append_assoc, List.cons_append, sb_scan_line hl.1]
      have hnon : findLastNl ((nlJoin (l2 :: ls2) ++ '\n' :: '\n' :: c :: rest).takeWhile isJsSpace) = none := by
        obtain ⟨r, hr⟩ := nlJoin_head_append l2 ls2
        rw [hr, List.append_assoc]
        exact findLastNl_eq_none
          (nl_not_mem_takeWhile_append hl2.2 hl2.1 (r ++ '\n' :: '\n' :: c :: rest))
      rw [sb_cons_nl_no_split hnon]
      rw [ih (by simp) (fun x hx => hg x (List.mem_cons_of_mem l hx))]
      simp [List.append_assoc]
      rfl

/-! ### The codec: digits and the export decomposition -/

theorem strData_append (a b : String) : (a ++ b).data = a.data ++ b.data := rfl

theorem digitChar_digit : ∀ m : Nat, m < 10 →
    isDigitChar (Nat.digitChar m) = true := by decide

theorem toDigitsCore_digits (fuel : Nat) :
    ∀ (n : Nat) (acc : List Char),
      (∀ c ∈ acc, isDigitChar c = true) →
      ∀ c ∈ Nat.toDigitsCore 10 fuel n acc, isDigitChar c = true := by
  induction fuel with
  | zero => intro n acc hacc; exact hacc
  | succ f ih =>
    intro n acc hacc c hc
    unfold Nat.toDigitsCore at hc
    have hd : isDigitChar (Nat.digitChar (n % 10)) = true :=
      digitChar_digit _ (Nat.mod_lt _ (by omega))
    by_cases hz : n / 10 = 0
    · rw [if_pos hz] at hc
      rcases List.mem_cons.mp hc with he | hm
      · subst he; exact hd
      · exact hacc c hm
    · rw [if_neg hz] at hc
      refine ih (n / 10) (Nat.digitChar (n % 10) :: acc) ?_ c hc
      intro d hdm
      rcases List.mem_cons.mp hdm with he | hm
      · subst he; exact hd
      · exact hacc d hm

theorem toDigitsCore_ne_nil (fuel : Nat) :
    ∀ (n : Nat) (acc : List Char), acc ≠ [] →
      Nat.toDigitsCore 10 fuel n acc ≠ [] := by
  induction fuel with
  | zero => intro n acc hacc; exact hacc
  | succ f ih =>
    intro n acc hacc
    unfold Nat.toDigitsCore
    by_cases hz : n / 10 = 0
    · rw [if_pos hz]; simp
    · rw [if_neg hz]
      exact ih (n / 10) _ (by simp)

theorem repr_data_digits (n : Nat) :
    ∀ c ∈ (Nat.repr n).data, isDigitChar c = true := by
  intro c hc
  have : (Nat.repr n).data = Nat.toDigitsCore 10 (n + 1) n [] := rfl
  rw [this] at hc
  exact toDigitsCore_digits (n + 1) n [] (by simp) c hc

theorem repr_data_ne_nil (n : Nat) : (Nat.repr n).data ≠ [] := by
  have : (Nat.repr n).data = Nat.toDigitsCore 10 (n + 1) n [] := rfl
  rw [this]
  unfold Nat.toDigitsCore
  by_cases hz : n / 10 = 0
  · rw [if_pos hz]; simp
  · rw [if_neg hz]
    exact toDigitsCore_ne_nil n (n / 10) _ (by simp)

theorem digit_not_space {c : Char} (h : isDigitChar c = true) :
    isJsSpace c = false := by
  by_contra hne
  rw [Bool.not_eq_false] at hne
  have hmem : c ∈ jsSpaceChars := by
    rw [isJsSpace, List.contains_iff_exists_mem_beq] at hne
    obtain ⟨x, hx, hbeq⟩ := hne
    have hcx : c = x := beq_iff_eq.mp hbeq
    rw [hcx]
    exact hx
  have hall : ∀ x ∈ jsSpaceChars, isDigitChar x = false := by decide
  rw [hall c hmem] at h
  exact Bool.noConfusion h

theorem digit_ne_nl {c : Char} (h : isDigitChar c = true) : c ≠ '\n' :=
  fun he => by subst he; exact absurd h (by decide)

theorem digits_noNl {l : List Char}
    (h : ∀ c ∈ l, isDigitChar c = true) : NoNl l :=
  fun hm => digit_ne_nl (h _ hm) rfl

theorem digits_nonBlank {l : List Char} (hne : l ≠ [])
    (h : ∀ c ∈ l, isDigitChar c = true) : NonBlank l := by
  cases l with
  | nil => exact absurd rfl hne
  | cons c rest =>
    exact ⟨c, List.mem_cons_self c rest,
      digit_not_space (h c (List.mem_cons_self c rest))⟩

theorem dropWhile_head_of_eq_self {p : Char → Bool} {l : List Char}
    (h : l.dropWhile p = l) : ∀ c, l.head? = some c → p c = false := by
  intro c hc
  cases l with
  | nil => exact Option.noConfusion hc
  | cons c0 rest =>
    rw [List.head?_cons, Option.some.injEq] at hc
    subst hc
    rw [List.dropWhile_cons] at h
    by_cases hp : p c0 = true
    · rw [if_pos hp] at h
      have := congrArg List.length h
      have hle := (List.dropWhile_suffix (l := rest) p).length_le
      simp at this
      omega
    · simpa using hp

theorem jsTrim_self_head {cs : List Char} (h : jsTrim cs = cs) :
    ∀ c, cs.head? = some c → isJsSpace c = false := by
  have hlen1 : (cs.dropWhile isJsSpace).length ≤ cs.length :=
    (List.dropWhile_suffix isJsSpace).length_le
  have hlen2 : (jsTrim cs).length ≤ (cs.dropWhile isJsSpace).length := by
    unfold jsTrim
    rw [List.length_reverse]
    calc ((cs.dropWhile isJsSpace).reverse.dropWhile isJsSpace).length
        ≤ (cs.dropWhile isJsSpace).reverse.length :=
          (List.dropWhile_suffix isJsSpace).length_le
      _ = (cs.dropWhile isJsSpace).length := List.length_reverse _
  rw [h] at hlen2
  have heq : (cs.dropWhile isJsSpace).length = cs.length := le_antisymm hlen1 hlen2
  have hdw : cs.dropWhile isJsSpace = cs :=
    (List.dropWhile_suffix isJsSpace).eq_of_length heq
  exact dropWhile_head_of_eq_self hdw

theorem jsTrim_self_last {cs : List Char} (h : jsTrim cs = cs) :
    ∀ c, cs.getLast? = some c → isJsSpace c = false := by
  have hhead := jsTrim_self_head h
  have hdw : cs.dropWhile isJsSpace = cs :=
    dropWhile_eq_self_of_head hhead
  have hrev : cs.reverse.dropWhile isJsSpace = cs.reverse := by
    unfold jsTrim at h
    rw [hdw] at h
    have := congrArg List.reverse h
    rwa [List.reverse_reverse] at this
  intro c hc
  exact dropWhile_head_of_eq_self hrev c (by rwa [List.head?_reverse])

theorem noNl_append {a b : List Char} (ha : NoNl a) (hb : NoNl b) :
    NoNl (a ++ b) :=
  fun hm => (List.mem_append.mp hm).elim ha hb

theorem int_repr_no_nl (m : Int) : NoNl (Int.repr m).data := by
  intro hm
  cases m with
  | ofNat n =>
    exact digit_ne_nl (repr_data_digits n '\n' hm) rfl
  | negSucc n =>
    have hm' : '\n' ∈ '-' :: (Nat.repr (n + 1)).data := hm
    rcases List.mem_cons.mp hm' with he | hm2
    · exact absurd he (by decide)
    · exact digit_ne_nl (repr_data_digits (n + 1) '\n' hm2) rfl

theorem padStart_no_nl {m : Int} {w : Nat} :
    NoNl (padStart w (toString m)).data := by
  intro hm
  have hm' : '\n' ∈
      List.replicate (w - (toString m).data.length) '0' ++ (toString m).data := hm
  rcases List.mem_append.mp hm' with h | h
  · exact absurd (List.eq_of_mem_replicate h) (by decide)
  · exact int_repr_no_nl m h

theorem formatTimestamp_no_nl (q : ℚ) : NoNl (formatTimestamp q).data := by
  unfold formatTimestamp
  simp only [strData_append]
  refine noNl_append (noNl_append (noNl_append (noNl_append (noNl_append
    (noNl_append ?_ ?_) ?_) ?_) ?_) ?_) ?_
  all_goals first
    | exact padStart_no_nl
    | decide

theorem tsLine_no_nl (a b : ℚ) : NoNl (tsLine a b) :=
  noNl_append (noNl_append (formatTimestamp_no_nl a) (by decide))
    (formatTimestamp_no_nl b)

theorem tsLine_nonBlank (a b : ℚ) : NonBlank (tsLine a b) := by
  refine ⟨'-', ?_, by decide⟩
  unfold tsLine
  refine List.mem_append.mpr (Or.inl (List.mem_append.mpr (Or.inr ?_)))
  decide

theorem blockLines_good {i : Nat} {s : Entry} (hgt : GoodText s.text) :
    ∀ l ∈ blockLines i s, NoNl l ∧ NonBlank l := by
  intro l hl
  unfold blockLines at hl
  rcases List.mem_cons.mp hl with he | hl2
  · subst he
    exact ⟨digits_noNl (repr_data_digits _),
      digits_nonBlank (repr_data_ne_nil _) (repr_data_digits _)⟩
  rcases List.mem_cons.mp hl2 with he | hl3
  · subst he
    exact ⟨tsLine_no_nl _ _, tsLine_nonBlank _ _⟩
  · exact ⟨noNl_of_mem_splitOnNl hl3, hgt.2 l hl3⟩

theorem blockBody_eq (i : Nat) (s : Entry) :
    blockBody i s = (Nat.repr (i + 1)).data ++
      '\n' :: (tsLine s.start s.stop ++ '\n' :: s.text.data) := by
  unfold blockBody blockLines
  cases hls : splitOnNl s.text.data with
  | nil => exact absurd hls (splitOnNl_ne_nil _)
  | cons a as =>
    have h1 : nlJoin (a :: as) = s.text.data := by
      rw [← hls]; exact nlJoin_splitOnNl _
    show (Nat.repr (i + 1)).data ++
      '\n' :: (tsLine s.start s.stop ++ '\n' :: nlJoin (a :: as)) = _
    rw [h1]

theorem blockStr_data (i : Nat) (s : Entry) :
    (toString (i + 1) ++ "\n" ++ formatTimestamp s.start ++ " --> " ++
      formatTimestamp s.stop ++ "\n" ++ s.text ++ "\n\n").data =
      blockBody i s ++ ['\n', '\n'] := by
  rw [blockBody_eq]
  have h0 : (toString (i + 1)).data = (Nat.repr (i + 1)).data := rfl
  simp only [strData_append, tsLine, List.append_assoc, h0,
    List.singleton_append, List.cons_append, List.nil_append]

theorem export_fold_data (l : List Entry) : ∀ (k : Nat) (init : String),
    (((List.enumFrom k l).map fun p =>
      toString (p.1 + 1) ++ "\n" ++ formatTimestamp p.2.start ++ " --> " ++
        formatTimestamp p.2.stop ++ "\n" ++ p.2.text ++ "\n\n").foldl
          (fun a b => a ++ b) init).data = init.data ++ concatBlocks k l := by
  induction l with
  | nil => intro k init; simp [concatBlocks]
  | cons s rest ih =>
    intro k init
    have he : List.enumFrom k (s :: rest) = (k, s) :: List.enumFrom (k + 1) rest := rfl
    rw [he, List.map_cons, List.foldl_cons, ih (k + 1), strData_append,
      blockStr_data k s]
    show _ = init.data ++ concatBlocks k (s :: rest)
    rw [concatBlocks]
    simp [List.append_assoc]

theorem export_data (e : SubtitleEngine) :
    (exportToSRT e).data = jsTrim (concatBlocks 0 e.subtitles) := by
  unfold exportToSRT
  show jsTrim (((List.enumFrom 0 e.subtitles).map _).foldl _ "").data = _
  rw [export_fold_data e.subtitles 0 ""]
  rfl

theorem concatBlocks_eq_bodies : ∀ {l : List Entry}, l ≠ [] → ∀ i : Nat,
    concatBlocks i l = concatBodies i l ++ ['\n', '\n'] := by
  intro l
  induction l with
  | nil => intro h; exact absurd rfl h
  | cons s rest ih =>
    intro _ i
    cases rest with
    | nil => rfl
    | cons s2 rest2 =>
      show blockBody i s ++ '\n' :: '\n' :: concatBlocks (i + 1) (s2 :: rest2) = _
      rw [ih (by simp) (i + 1)]
      show _ = (blockBody i s ++ '\n' :: '\n' :: concatBodies (i + 1) (s2 :: rest2)) ++ ['\n', '\n']
      simp [List.append_assoc]

theorem goodText_ne_nil {t : String} (h : GoodText t) : t.data ≠ [] := by
  intro he
  have := h.2 [] (by rw [he]; exact List.mem_cons_self [] [])
  obtain ⟨c, hc, _⟩ := this
  exact List.not_mem_nil c hc

theorem blockBody_destruct (i : Nat) (s : Entry) :
    ∃ c cs, blockBody i s = c :: cs ∧ isDigitChar c = true := by
  rw [blockBody_eq]
  cases hr : (Nat.repr (i + 1)).data with
  | nil => exact absurd hr (repr_data_ne_nil _)
  | cons c cs =>
    exact ⟨c, cs ++ '\n' :: (tsLine s.start s.stop ++ '\n' :: s.text.data),
      rfl, repr_data_digits _ c (by rw [hr]; exact List.mem_cons_self _ _)⟩

theorem concatBodies_destruct {l : List Entry} (hne : l ≠ []) (i : Nat) :
    ∃ c cs, concatBodies i l = c :: cs ∧ isDigitChar c = true := by
  cases l with
  | nil => exact absurd rfl hne
  | cons s rest =>
    obtain ⟨c, cs, hck, hcd⟩ := blockBody_destruct i s
    cases rest with
    | nil =>
      refine ⟨c, cs, ?_, hcd⟩
      show blockBody i s = c :: cs
      exact hck
    | cons s2 r2 =>
      refine ⟨c, cs ++ '\n' :: '\n' :: concatBodies (i + 1) (s2 :: r2), ?_, hcd⟩
      show blockBody i s ++ '\n' :: '\n' :: concatBodies (i + 1) (s2 :: r2) = _
      rw [hck]
      rfl

theorem blockBody_getLast? (i : Nat) (s : Entry) (hgt : GoodText s.text) :
    ∀ c, (blockBody i s).getLast? = some c → isJsSpace c = false := by
  intro c hc
  rw [blockBody_eq] at hc
  have hre : (Nat.repr (i + 1)).data ++
      '\n' :: (tsLine s.start s.stop ++ '\n' :: s.text.data) =
      ((Nat.repr (i + 1)).data ++ '\n' :: tsLine s.start s.stop ++ ['\n']) ++
        s.text.data := by
    simp [List.append_assoc]
  rw [hre, List.getLast?_append_of_ne_nil _ (goodText_ne_nil hgt)] at hc
  exact jsTrim_self_last hgt.1 c hc

theorem concatBodies_getLast? {l : List Entry} (hne : l ≠ [])
    (hg : ∀ s ∈ l, GoodText s.text) (i : Nat) :
    ∀ c, (concatBodies i l).getLast? = some c → isJsSpace c = false := by
  induction l generalizing i with
  | nil => exact absurd rfl hne
  | cons s rest ih =>
    intro c hc
    cases rest with
    | nil =>
      exact blockBody_getLast? i s (hg s (List.mem_cons_self s []))
        c hc
    | cons s2 r2 =>
      have hform : concatBodies i (s :: s2 :: r2) =
          (blockBody i s ++ ['\n', '\n']) ++ concatBodies (i + 1) (s2 :: r2) := by
        show blockBody i s ++ '\n' :: '\n' :: concatBodies (i + 1) (s2 :: r2) = _
        simp [List.append_assoc]
      obtain ⟨c2, cs2, hck, _⟩ := concatBodies_destruct (l := s2 :: r2) (by simp) (i + 1)
      rw [hform, List.getLast?_append_of_ne_nil _ (by rw [hck]; simp)] at hc
      exact ih (by simp) (fun x hx => hg x (List.mem_cons_of_mem s hx)) (i + 1) c hc

theorem trim_concatBlocks {l : List Entry} (hne : l ≠ [])
    (hg : ∀ s ∈ l, GoodText s.text) (i : Nat) :
    jsTrim (concatBlocks i l) = concatBodies i l := by
  rw [concatBlocks_eq_bodies hne i]
  obtain ⟨c, cs, hck, hcd⟩ := concatBodies_destruct hne i
  refine jsTrim_append_sep (by rw [hck]; simp) ?_ (concatBodies_getLast? hne hg i)
  intro c0 hc0
  rw [hck, List.head?_cons, Option.some.injEq] at hc0
  subst hc0
  exact digit_not_space hcd

theorem splitBlocks_concatBodies {l : List Entry} (hne : l ≠ [])
    (hg : ∀ s ∈ l, GoodText s.text) (i : Nat) :
    splitBlocksAux (concatBodies i l) [] = blocksOf i l := by
  induction l generalizing i with
  | nil => exact absurd rfl hne
  | cons s rest ih =>
    have hlines : blockLines i s ≠ [] := by unfold blockLines; simp
    have hgood := blockLines_good (i := i) (s := s)
      (hg s (List.mem_cons_self s rest))
    cases rest with
    | nil =>
      show splitBlocksAux (nlJoin (blockLines i s)) [] = [blockBody i s]
      rw [sb_block_final hlines hgood]
      rfl
    | cons s2 r2 =>
      show splitBlocksAux
        (blockBody i s ++ '\n' :: '\n' :: concatBodies (i + 1) (s2 :: r2)) [] = _
      obtain ⟨c, cs, hck, hcd⟩ := concatBodies_destruct (l := s2 :: r2) (by simp) (i + 1)
      rw [hck]
      show splitBlocksAux (nlJoin (blockLines i s) ++ '\n' :: '\n' :: c :: cs) [] = _
      rw [sb_block_sep hlines hgood (digit_not_space hcd)]
      rw [← hck]
      rw [ih (by simp) (fun x hx => hg x (List.mem_cons_of_mem s hx)) (i + 1)]
      rfl

/-! ### The codec: timestamp arithmetic -/

theorem msQuant_exists {q : ℚ} (h : MsQuant q) :
    ∃ n : Nat, n < 360000000 ∧ q = (n : ℚ) / 1000 := by
  obtain ⟨h0, hlt, hden⟩ := h
  have hnum : ((q * 1000).num : ℚ) = q * 1000 := (Rat.den_eq_one_iff _).mp hden
  have hnn : 0 ≤ (q * 1000).num := Rat.num_nonneg.mpr (by positivity)
  have hbound : (q * 1000).num < 360000000 := by
    have : q * 1000 < 360000000 := by linarith
    rw [← hnum] at this
    exact_mod_cast this
  refine ⟨(q * 1000).num.toNat, by omega, ?_⟩
  have htn : (((q * 1000).num.toNat : Int) : ℚ) = ((q * 1000).num : ℚ) := by
    congr 1
    omega
  push_cast at htn
  rw [htn, hnum]
  ring

theorem floor_nat_div (n m : Nat) (hm : 0 < m) :
    ⌊(n : ℚ) / (m : ℚ)⌋ = (Nat.cast (n / m) : Int) := by
  have hdm := Nat.div_add_mod n m
  have hmlt := Nat.mod_lt n hm
  have c1 : (m : ℚ) * ((n / m : Nat) : ℚ) + ((n % m : Nat) : ℚ) = (n : ℚ) := by
    exact_mod_cast congrArg (Nat.cast : Nat → ℚ) hdm
  have c2 : ((n % m : Nat) : ℚ) < (m : ℚ) := by exact_mod_cast hmlt
  have c3 : (0 : ℚ) ≤ ((n % m : Nat) : ℚ) := by positivity
  have hmq : (0 : ℚ) < (m : ℚ) := by exact_mod_cast hm
  rw [Int.floor_eq_iff]
  constructor
  · rw [Int.cast_natCast, le_div_iff₀ hmq]
    nlinarith [c1, c3]
  · rw [Int.cast_natCast, div_lt_iff₀ hmq]
    nlinarith [c1, c2]

theorem jsMod_nonneg_eq (q b : ℚ) (hq : 0 ≤ q) (hb : 0 < b) :
    jsMod q b = q - b * (⌊q / b⌋ : ℚ) := by
  unfold jsMod jsTrunc
  rw [if_pos (by positivity)]

theorem fmt_fields (n : Nat) :
    ⌊((n : ℚ) / 1000) / 3600⌋ = (Nat.cast (n / 3600000) : Int) ∧
    ⌊jsMod ((n : ℚ) / 1000) 3600 / 60⌋ = (Nat.cast (n % 3600000 / 60000) : Int) ∧
    ⌊jsMod ((n : ℚ) / 1000) 60⌋ = (Nat.cast (n % 60000 / 1000) : Int) ∧
    ⌊jsMod ((n : ℚ) / 1000) 1 * 1000⌋ = (Nat.cast (n % 1000) : Int) := by
  set q : ℚ := (n : ℚ) / 1000 with hq
  have hq0 : 0 ≤ q := by positivity
  have e1 : q / 3600 = (n : ℚ) / 3600000 := by rw [hq]; ring
  have f1 : ⌊q / 3600⌋ = (Nat.cast (n / 3600000) : Int) := by
    rw [e1]; exact floor_nat_div n 3600000 (by omega)
  refine ⟨f1, ?_, ?_, ?_⟩
  · have hm : jsMod q 3600 = ((n % 3600000 : Nat) : ℚ) / 1000 := by
      rw [jsMod_nonneg_eq q 3600 hq0 (by norm_num), f1, hq]
      have hc : ((n % 3600000 : Nat) : ℚ) + 3600000 * ((n / 3600000 : Nat) : ℚ) = (n : ℚ) := by
        exact_mod_cast congrArg (Nat.cast : Nat → ℚ) (Nat.mod_add_div n 3600000)
      rw [Int.cast_natCast]
      linarith
    rw [hm]
    have e2 : ((n % 3600000 : Nat) : ℚ) / 1000 / 60 = ((n % 3600000 : Nat) : ℚ) / 60000 := by
      ring
    rw [e2]
    exact floor_nat_div _ 60000 (by omega)
  · have f2 : ⌊q / 60⌋ = (Nat.cast (n / 60000) : Int) := by
      have e3 : q / 60 = (n : ℚ) / 60000 := by rw [hq]; ring
      rw [e3]; exact floor_nat_div n 60000 (by omega)
    have hm : jsMod q 60 = ((n % 60000 : Nat) : ℚ) / 1000 := by
      rw [jsMod_nonneg_eq q 60 hq0 (by norm_num), f2, hq]
      have hc : ((n % 60000 : Nat) : ℚ) + 60000 * ((n / 60000 : Nat) : ℚ) = (n : ℚ) := by
        exact_mod_cast congrArg (Nat.cast : Nat → ℚ) (Nat.mod_add_div n 60000)
      rw [Int.cast_natCast]
      linarith
    rw [hm]
    exact floor_nat_div _ 1000 (by omega)
  · have f3 : ⌊q / 1⌋ = (Nat.cast (n / 1000) : Int) := by
      have e4 : q / 1 = (n : ℚ) / 1000 := by rw [hq]; ring
      rw [e4]; exact floor_nat_div n 1000 (by omega)
    have hm : jsMod q 1 = ((n % 1000 : Nat) : ℚ) / 1000 := by
      rw [jsMod_nonneg_eq q 1 hq0 (by norm_num), f3, hq]
      have hc : ((n % 1000 : Nat) : ℚ) + 1000 * ((n / 1000 : Nat) : ℚ) = (n : ℚ) := by
        exact_mod_cast congrArg (Nat.cast : Nat → ℚ) (Nat.mod_add_div n 1000)
      rw [Int.cast_natCast]
      linarith
    rw [hm]
    have e5 : ((n % 1000 : Nat) : ℚ) / 1000 * 1000 = ((n % 1000 : Nat) : ℚ) := by
      ring
    rw [e5]
    exact Int.floor_natCast _

theorem int_toString_natCast (k : Nat) :
    toString ((Nat.cast k) : Int) = Nat.repr k := rfl

theorem pad2_digits : ∀ k : Nat, k < 100 →
    (padStart 2 (Nat.repr k)).data.length = 2 ∧
    (padStart 2 (Nat.repr k)).data.all isDigitChar = true ∧
    parseIntDigits (padStart 2 (Nat.repr k)).data = k := by decide

set_option maxRecDepth 4000 in
theorem pad3_digits : ∀ k : Nat, k < 1000 →
    (padStart 3 (Nat.repr k)).data.length = 3 ∧
    (padStart 3 (Nat.repr k)).data.all isDigitChar = true ∧
    parseIntDigits (padStart 3 (Nat.repr k)).data = k := by decide

theorem readDigits_exact (g : List Char) :
    ∀ r : List Char, (∀ c ∈ g, isDigitChar c = true) →
    readDigits g.length (g ++ r) = some (g, r) := by
  induction g with
  | nil => intro r _; rfl
  | cons c g' ih =>
    intro r h
    show readDigits (g'.length + 1) (c :: (g' ++ r)) = some (c :: g', r)
    unfold readDigits
    rw [if_pos (h c (List.mem_cons_self c g'))]
    rw [ih r fun d hd => h d (List.mem_cons_of_mem c hd)]
    rfl

theorem expectChar_cons (c : Char) (cs : List Char) :
    expectChar c (c :: cs) = some cs := by
  simp [expectChar]

theorem matchArrow_eval {c0 : Char} (hc : isJsSpace c0 = false)
    (rest : List Char) :
    matchArrow (' ' :: '-' :: '-' :: '>' :: ' ' :: c0 :: rest) =
      some (c0 :: rest) := by
  have h1 : isJsSpace ' ' = true := by decide
  have h2 : isJsSpace '-' = false := by decide
  have h3 : isJsSpace '>' = false := by decide
  unfold matchArrow
  simp [List.dropWhile_cons, expectChar, hc, h1, h2, h3]

theorem matchTimePart_eval {d1 d2 d3 d4 : List Char} (r : List Char)
    (h1 : d1.length = 2) (ha1 : ∀ c ∈ d1, isDigitChar c = true)
    (h2 : d2.length = 2) (ha2 : ∀ c ∈ d2, isDigitChar c = true)
    (h3 : d3.length = 2) (ha3 : ∀ c ∈ d3, isDigitChar c = true)
    (h4 : d4.length = 3) (ha4 : ∀ c ∈ d4, isDigitChar c = true) :
    matchTimePart (d1 ++ ':' :: (d2 ++ ':' :: (d3 ++ ',' :: (d4 ++ r)))) =
      some ((d1, d2, d3, d4), r) := by
  have e1 : readDigits 2 (d1 ++ ':' :: (d2 ++ ':' :: (d3 ++ ',' :: (d4 ++ r)))) =
      some (d1, ':' :: (d2 ++ ':' :: (d3 ++ ',' :: (d4 ++ r)))) := by
    rw [← h1]; exact readDigits_exact d1 _ ha1
  have e2 : readDigits 2 (d2 ++ ':' :: (d3 ++ ',' :: (d4 ++ r))) =
      some (d2, ':' :: (d3 ++ ',' :: (d4 ++ r))) := by
    rw [← h2]; exact readDigits_exact d2 _ ha2
  have e3 : readDigits 2 (d3 ++ ',' :: (d4 ++ r)) =
      some (d3, ',' :: (d4 ++ r)) := by
    rw [← h3]; exact readDigits_exact d3 _ ha3
  have e4 : readDigits 3 (d4 ++ r) = some (d4, r) := by
    rw [← h4]; exact readDigits_exact d4 _ ha4
  unfold matchTimePart
  simp [e1, expectChar_cons, e2, e3, e4]

theorem formatTimestamp_spec (n : Nat) :
    (formatTimestamp ((n : ℚ) / 1000)).data =
      (padStart 2 (Nat.repr (n / 3600000))).data ++ ':' ::
      ((padStart 2 (Nat.repr (n % 3600000 / 60000))).data ++ ':' ::
      ((padStart 2 (Nat.repr (n % 60000 / 1000))).data ++ ',' ::
      (padStart 3 (Nat.repr (n % 1000))).data)) := by
  obtain ⟨g1, g2, g3, g4⟩ := fmt_fields n
  unfold formatTimestamp
  rw [g1, g2, g3, g4]
  dsimp only
  rw [int_toString_natCast, int_toString_natCast,
    int_toString_natCast, int_toString_natCast]
  simp only [strData_append, List.append_assoc, List.singleton_append,
    List.cons_append, List.nil_append]

theorem pad2_destruct (k : Nat) (hk : k < 100) :
    ∃ c cs, (padStart 2 (Nat.repr k)).data = c :: cs ∧ isDigitChar c = true := by
  have hl := (pad2_digits k hk).1
  have ha := (pad2_digits k hk).2.1
  cases hd : (padStart 2 (Nat.repr k)).data with
  | nil => rw [hd] at hl; simp at hl
  | cons c cs =>
    refine ⟨c, cs, rfl, ?_⟩
    rw [hd] at ha
    exact List.all_eq_true.mp ha c (List.mem_cons_self c cs)

theorem pad2_mem (k : Nat) (hk : k < 100) :
    ∀ c ∈ (padStart 2 (Nat.repr k)).data, isDigitChar c = true :=
  fun c hc => List.all_eq_true.mp (pad2_digits k hk).2.1 c hc

theorem pad3_mem (k : Nat) (hk : k < 1000) :
    ∀ c ∈ (padStart 3 (Nat.repr k)).data, isDigitChar c = true :=
  fun c hc => List.all_eq_true.mp (pad3_digits k hk).2.1 c hc

set_option maxHeartbeats 1000000 in
theorem matchTsAt_tsLine (n1 n2 : Nat) (h1 : n1 < 360000000)
    (h2 : n2 < 360000000) :
    matchTsAt (tsLine ((n1 : ℚ) / 1000) ((n2 : ℚ) / 1000)) =
      some ⟨(padStart 2 (Nat.repr (n1 / 3600000))).data,
            (padStart 2 (Nat.repr (n1 % 3600000 / 60000))).data,
            (padStart 2 (Nat.repr (n1 % 60000 / 1000))).data,
            (padStart 3 (Nat.repr (n1 % 1000))).data,
            (padStart 2 (Nat.repr (n2 / 3600000))).data,
            (padStart 2 (Nat.repr (n2 % 3600000 / 60000))).data,
            (padStart 2 (Nat.repr (n2 % 60000 / 1000))).data,
            (padStart 3 (Nat.repr (n2 % 1000))).data⟩ := by
  have harr : (" --> " : String).data = [' ', '-', '-', '>', ' '] := rfl
  have hB := formatTimestamp_spec n2
  have hA := formatTimestamp_spec n1
  obtain ⟨c0, cs0, hp, hpd⟩ := pad2_destruct (n2 / 3600000) (by omega)
  have e1 : matchTimePart (tsLine ((n1 : ℚ) / 1000) ((n2 : ℚ) / 1000)) =
      some (((padStart 2 (Nat.repr (n1 / 3600000))).data,
             (padStart 2 (Nat.repr (n1 % 3600000 / 60000))).data,
             (padStart 2 (Nat.repr (n1 % 60000 / 1000))).data,
             (padStart 3 (Nat.repr (n1 % 1000))).data),
            [' ', '-', '-', '>', ' '] ++ (formatTimestamp ((n2 : ℚ) / 1000)).data) := by
    unfold tsLine
    rw [hA, harr]
    have := matchTimePart_eval
      ([' ', '-', '-', '>', ' '] ++ (formatTimestamp ((n2 : ℚ) / 1000)).data)
      (pad2_digits _ (by omega : n1 / 3600000 < 100)).1 (pad2_mem _ (by omega))
      (pad2_digits _ (by omega : n1 % 3600000 / 60000 < 60 * 2 - 20)).1 (pad2_mem _ (by omega))
      (pad2_digits _ (by omega : n1 % 60000 / 1000 < 100)).1 (pad2_mem _ (by omega))
      (pad3_digits _ (by omega : n1 % 1000 < 1000)).1 (pad3_mem _ (by omega))
    rw [← this]
    congr 1
    simp [List.append_assoc]
  have e2 : matchArrow (' ' :: '-' :: '-' :: '>' :: ' ' ::
      (formatTimestamp ((n2 : ℚ) / 1000)).data) =
      some ((formatTimestamp ((n2 : ℚ) / 1000)).data) := by
    have hBc : (formatTimestamp ((n2 : ℚ) / 1000)).data = c0 ::
        (cs0 ++ ':' ::
          ((padStart 2 (Nat.repr (n2 % 3600000 / 60000))).data ++ ':' ::
          ((padStart 2 (Nat.repr (n2 % 60000 / 1000))).data ++ ',' ::
          (padStart 3 (Nat.repr (n2 % 1000))).data))) := by
      rw [hB, hp]
      rfl
    rw [hBc]
    exact matchArrow_eval (digit_not_space hpd) _
  have e3 : matchTimePart ((formatTimestamp ((n2 : ℚ) / 1000)).data) =
      some (((padStart 2 (Nat.repr (n2 / 3600000))).data,
             (padStart 2 (Nat.repr (n2 % 3600000 / 60000))).data,
             (padStart 2 (Nat.repr (n2 % 60000 / 1000))).data,
             (padStart 3 (Nat.repr (n2 % 1000))).data), []) := by
    rw [hB]
    have happ : (padStart 3 (Nat.repr (n2 % 1000))).data =
        (padStart 3 (Nat.repr (n2 % 1000))).data ++ [] := (List.append_nil _).symm
    conv_lhs => rw [happ]
    exact matchTimePart_eval ([] : List Char)
      (pad2_digits _ (by omega : n2 / 3600000 < 100)).1 (pad2_mem _ (by omega))
      (pad2_digits _ (by omega : n2 % 3600000 / 60000 < 100)).1 (pad2_mem _ (by omega))
      (pad2_digits _ (by omega : n2 % 60000 / 1000 < 100)).1 (pad2_mem _ (by omega))
      (pad3_digits _ (by omega : n2 % 1000 < 1000)).1 (pad3_mem _ (by omega))
  unfold matchTsAt
  simp [e1, e2, e3]

theorem findTs_of_head_match {c : Char} {t : List Char} {g : TsGroups}
    (h : matchTsAt (c :: t) = some g) : findTs (c :: t) = some g := by
  unfold findTs
  rw [h]

theorem tsLine_destruct (n1 n2 : Nat) (h1 : n1 < 360000000) :
    ∃ c cs, tsLine ((n1 : ℚ) / 1000) ((n2 : ℚ) / 1000) = c :: cs := by
  obtain ⟨c, cs, hp, _⟩ := pad2_destruct (n1 / 3600000) (by omega)
  refine ⟨c, cs ++ ':' ::
      ((padStart 2 (Nat.repr (n1 % 3600000 / 60000))).data ++ ':' ::
      ((padStart 2 (Nat.repr (n1 % 60000 / 1000))).data ++ ',' ::
      (padStart 3 (Nat.repr (n1 % 1000))).data)) ++
      " --> ".data ++ (formatTimestamp ((n2 : ℚ) / 1000)).data, ?_⟩
  unfold tsLine
  rw [formatTimestamp_spec n1, hp]
  rfl

theorem parseTs_pads (n : Nat) (hn : n < 360000000) :
    parseTimestampGroups (padStart 2 (Nat.repr (n / 3600000))).data
      (padStart 2 (Nat.repr (n % 3600000 / 60000))).data
      (padStart 2 (Nat.repr (n % 60000 / 1000))).data
      (padStart 3 (Nat.repr (n % 1000))).data = (n : ℚ) / 1000 := by
  unfold parseTimestampGroups
  rw [(pad2_digits _ (by omega : n / 3600000 < 100)).2.2,
    (pad2_digits _ (by omega : n % 3600000 / 60000 < 100)).2.2,
    (pad2_digits _ (by omega : n % 60000 / 1000 < 100)).2.2,
    (pad3_digits _ (by omega : n % 1000 < 1000)).2.2]
  have key : n / 3600000 * 3600000 + n % 3600000 / 60000 * 60000 +
      n % 60000 / 1000 * 1000 + n % 1000 = n := by omega
  have hc := congrArg (Nat.cast : Nat → ℚ) key
  push_cast at hc
  field_simp
  linarith

theorem parseBlock_spec (i : Nat) (s : Entry) (hstart : MsQuant s.start)
    (hstop : MsQuant s.stop) (hgt : GoodText s.text) :
    parseBlock (blockBody i s) = some s := by
  obtain ⟨n1, hn1, he1⟩ := msQuant_exists hstart
  obtain ⟨n2, hn2, he2⟩ := msQuant_exists hstop
  have htr : jsTrim (blockBody i s) = blockBody i s := by
    obtain ⟨c, cs, hck, hcd⟩ := blockBody_destruct i s
    refine jsTrim_eq_self ?_ (blockBody_getLast? i s hgt)
    intro c0 hc0
    rw [hck, List.head?_cons, Option.some.injEq] at hc0
    subst hc0
    exact digit_not_space hcd
  have hsp : splitOnNl (blockBody i s) = blockLines i s := by
    rw [blockBody_eq]
    rw [splitOnNl_append (digits_noNl (repr_data_digits _))]
    rw [splitOnNl_append (tsLine_no_nl _ _)]
    rfl
  have hlen : ¬ (blockLines i s).length < 3 := by
    have h3 : (blockLines i s).length =
        2 + (splitOnNl s.text.data).length := by
      unfold blockLines
      simp
      omega
    have := splitOnNl_ne_nil s.text.data
    have hpos : 0 < (splitOnNl s.text.data).length :=
      List.length_pos.mpr this
    omega
  have hget : (blockLines i s).get? 1 = some (tsLine s.start s.stop) := rfl
  have hfind : findTs (tsLine s.start s.stop) =
      some ⟨(padStart 2 (Nat.repr (n1 / 3600000))).data,
            (padStart 2 (Nat.repr (n1 % 3600000 / 60000))).data,
            (padStart 2 (Nat.repr (n1 % 60000 / 1000))).data,
            (padStart 3 (Nat.repr (n1 % 1000))).data,
            (padStart 2 (Nat.repr (n2 / 3600000))).data,
            (padStart 2 (Nat.repr (n2 % 3600000 / 60000))).data,
            (padStart 2 (Nat.repr (n2 % 60000 / 1000))).data,
            (padStart 3 (Nat.repr (n2 % 1000))).data⟩ := by
    rw [he1, he2]
    obtain ⟨c, cs, hcc⟩ := tsLine_destruct n1 n2 hn1
    have hm := matchTsAt_tsLine n1 n2 hn1 hn2
    rw [hcc] at hm ⊢
    exact findTs_of_head_match hm
  have hdrop : (blockLines i s).drop 2 = splitOnNl s.text.data := rfl
  have htext : jsTrim (nlJoin ((blockLines i s).drop 2)) = s.text.data := by
    rw [hdrop, nlJoin_splitOnNl]
    exact hgt.1
  unfold parseBlock
  rw [htr, hsp, if_neg hlen, hget]
  dsimp only
  rw [hfind]
  dsimp only
  rw [htext]
  rw [if_neg (goodText_ne_nil hgt)]
  rw [parseTs_pads n1 hn1, parseTs_pads n2 hn2, ← he1, ← he2]

theorem blocksOf_parse {l : List Entry}
    (h : ∀ s ∈ l, MsQuant s.start ∧ MsQuant s.stop ∧ GoodText s.text) :
    ∀ i : Nat, (blocksOf i l).filterMap parseBlock = l := by
  induction l with
  | nil => intro i; rfl
  | cons s rest ih =>
    intro i
    have hs := h s (List.mem_cons_self s rest)
    show (blockBody i s :: blocksOf (i + 1) rest).filterMap parseBlock = s :: rest
    rw [List.filterMap_cons]
    rw [parseBlock_spec i s hs.1 hs.2.1 hs.2.2]
    rw [ih (fun x hx => h x (List.mem_cons_of_mem s hx)) (i + 1)]

theorem parseSRT_exportToSRT (e : SubtitleEngine)
    (hq : ∀ s ∈ e.subtitles, MsQuant s.start ∧ MsQuant s.stop)
    (ht : ∀ s ∈ e.subtitles, GoodText s.text) :
    parseSRT (exportToSRT e) = e.subtitles := by
  by_cases hne : e.subtitles = []
  · have hexp : exportToSRT e = "" := by
      unfold exportToSRT
      rw [hne]
      rfl
    rw [hexp, hne]
    unfold parseSRT
    rw [show jsTrim ("" : String).data = [] from rfl]
    unfold splitBlocks
    rw [sb_nil]
    rfl
  · unfold parseSRT
    rw [export_data, trim_concatBlocks hne ht 0]
    obtain ⟨c, cs, hck, hcd⟩ := concatBodies_destruct hne 0
    rw [jsTrim_eq_self ?hhead (concatBodies_getLast? hne ht 0)]
    case hhead =>
      intro c0 hc0
      rw [hck, List.head?_cons, Option.some.injEq] at hc0
      subst hc0
      exact digit_not_space hcd
    unfold splitBlocks
    rw [splitBlocks_concatBodies hne ht 0]
    exact blocksOf_parse (fun s hs => ⟨(hq s hs).1, (hq s hs).2, ht s hs⟩) 0

theorem splitOnNl_nlJoin {lines : List (List Char)} (hne : lines ≠ [])
    (h : ∀ l ∈ lines, NoNl l) : splitOnNl (nlJoin lines) = lines := by
  induction lines with
  | nil => exact absurd rfl hne
  | cons l ls ih =>
    cases ls with
    | nil =>
      show splitOnNl l = [l]
      exact splitOnNl_noNl (h l (List.mem_cons_self l []))
    | cons l2 ls2 =>
      show splitOnNl (l ++ '\n' :: nlJoin (l2 :: ls2)) = l :: l2 :: ls2
      rw [splitOnNl_append (h l (List.mem_cons_self l _))]
      rw [ih (by simp) (fun x hx => h x (List.mem_cons_of_mem l hx))]

theorem nonBlank_ne_nil {l : List Char} (h : NonBlank l) : l ≠ [] := by
  obtain ⟨c, hc, _⟩ := h
  intro he
  rw [he] at hc
  exact absurd hc (List.not_mem_nil c)

theorem nlJoin_ne_nil {l : List Char} (hl : l ≠ []) (ls : List (List Char)) :
    nlJoin (l :: ls) ≠ [] := by
  obtain ⟨r, hr⟩ := nlJoin_head_append l ls
  rw [hr]
  intro h
  exact hl (List.append_eq_nil.mp h).1

/-- A block whose lines are too few, whose second line has no timestamp
match, or whose text trims to nothing, is rejected by `parseBlock`. -/
theorem parseBlock_none_of_bad {lines : List (List Char)}
    (hnl : ∀ l ∈ lines, NoNl l) (hne : lines ≠ [])
    (htrim : jsTrim (nlJoin lines) = nlJoin lines)
    (hbad : lines.length < 3 ∨
      (∃ l1, lines.get? 1 = some l1 ∧ findTs l1 = none) ∨
      jsTrim (nlJoin (lines.drop 2)) = []) :
    parseBlock (nlJoin lines) = none := by
  unfold parseBlock
  rw [htrim, splitOnNl_nlJoin hne hnl]
  by_cases hlen : lines.length < 3
  · rw [if_pos hlen]
  · rw [if_neg hlen]
    rcases hbad with hb | ⟨l1, hget, hfind⟩ | htext
    · exact absurd hb hlen
    · rw [hget]
      dsimp only
      rw [hfind]
    · cases hget1 : lines.get? 1 with
      | none => rfl
      | some l1 =>
        dsimp only
        cases hfind : findTs l1 with
        | none => rfl
        | some g =>
          dsimp only
          rw [htext]
          rw [if_pos rfl]

/-- C2 (amended): for every entry sequence whose times are non-negative,
millisecond-quantized and below 100 hours, and whose texts carry no
leading or trailing whitespace and no whitespace-only line,
`parseSRT (exportToSRT e) = e.subtitles` exactly (no 1ms slack is needed,
and no ordering or disjointness hypothesis is needed either). -/
theorem claim_C2_roundtrip (e : SubtitleEngine)
    (hq : ∀ s ∈ e.subtitles, MsQuant s.start ∧ MsQuant s.stop)
    (ht : ∀ s ∈ e.subtitles, GoodText s.text) :
    parseSRT (exportToSRT e) = e.subtitles :=
  parseSRT_exportToSRT e hq ht

/-- C4 (amended): a block parses only with the ordinal line present (the
source demands at least 3 lines and reads the timestamp from `lines[1]`);
for `ordinal :: timestampLine :: texts` with every line free of line
breaks and not whitespace-only, the timestamp line matching the regex,
and the text not trimming to nothing, `parseSRT` yields exactly the one
entry with the converted times and the trimmed joined text. -/
theorem claim_C4_block_shape (ord ts : List Char) (texts : List (List Char))
    (g : TsGroups)
    (hord : NoNl ord) (hob : NonBlank ord)
    (hts : NoNl ts) (htsb : NonBlank ts)
    (htexts : ∀ l ∈ texts, NoNl l ∧ NonBlank l)
    (htne : texts ≠ [])
    (hfind : findTs ts = some g)
    (htrim : jsTrim (nlJoin (ord :: ts :: texts)) = nlJoin (ord :: ts :: texts))
    (htext : jsTrim (nlJoin texts) ≠ []) :
    parseSRT (String.mk (nlJoin (ord :: ts :: texts))) =
      [⟨parseTimestampGroups g.h1 g.m1 g.s1 g.ms1,
        parseTimestampGroups g.h2 g.m2 g.s2 g.ms2,
        String.mk (jsTrim (nlJoin texts))⟩] := by
  have hg : ∀ l ∈ ord :: ts :: texts, NoNl l ∧ NonBlank l := by
    intro l hl
    rcases List.mem_cons.mp hl with rfl | hl
    · exact ⟨hord, hob⟩
    rcases List.mem_cons.mp hl with rfl | hl
    · exact ⟨hts, htsb⟩
    exact htexts l hl
  have hpb : parseBlock (nlJoin (ord :: ts :: texts)) =
      some ⟨parseTimestampGroups g.h1 g.m1 g.s1 g.ms1,
            parseTimestampGroups g.h2 g.m2 g.s2 g.ms2,
            String.mk (jsTrim (nlJoin texts))⟩ := by
    unfold parseBlock
    rw [htrim, splitOnNl_nlJoin (by simp) (fun l hl => (hg l hl).1)]
    have hlen : ¬ (ord :: ts :: texts).length < 3 := by
      cases texts with
      | nil => exact absurd rfl htne
      | cons a as =>
        simp only [List.length_cons]
        omega
    rw [if_neg hlen]
    rw [show (ord :: ts :: texts).get? 1 = some ts from rfl]
    dsimp only
    rw [hfind]
    dsimp only
    rw [show (ord :: ts :: texts).drop 2 = texts from rfl]
    rw [if_neg htext]
  unfold parseSRT
  rw [show (String.mk (nlJoin (ord :: ts :: texts))).data
        = nlJoin (ord :: ts :: texts) from rfl]
  rw [htrim]
  unfold splitBlocks
  rw [sb_block_final (by simp) hg []]
  simp only [List.reverse_nil, List.nil_append]
  rw [List.filterMap_cons, hpb]
  rfl

/-- C9: the parse degrades gracefully rather than failing: empty input
yields the empty sequence, and a leading block that is malformed (fewer
than 3 lines, a second line with no timestamp match, or text trimming to
nothing) is skipped silently, leaving the parse of the rest unchanged. -/
theorem claim_C9_graceful (lines : List (List Char)) (rest : List Char)
    (hg : ∀ l ∈ lines, NoNl l ∧ NonBlank l) (hne : lines ≠ [])
    (htrim : jsTrim (nlJoin lines) = nlJoin lines)
    (hrtrim : jsTrim rest = rest)
    (hrhead : rest = [] ∨ ∃ c cs, rest = c :: cs ∧ isJsSpace c = false)
    (hbad : lines.length < 3 ∨
      (∃ l1, lines.get? 1 = some l1 ∧ findTs l1 = none) ∨
      jsTrim (nlJoin (lines.drop 2)) = []) :
    parseSRT ("" : String) = [] ∧
    parseSRT (String.mk (nlJoin lines ++ '\n' :: '\n' :: rest)) =
      parseSRT (String.mk rest) := by
  have hpb : parseBlock (nlJoin lines) = none :=
    parseBlock_none_of_bad (fun l hl => (hg l hl).1) hne htrim hbad
  have hnlne : nlJoin lines ≠ [] := by
    cases lines with
    | nil => exact absurd rfl hne
    | cons l ls =>
      exact nlJoin_ne_nil (nonBlank_ne_nil (hg l (List.mem_cons_self l ls)).2) ls
  have hhead := jsTrim_self_head htrim
  have hlast := jsTrim_self_last htrim
  constructor
  · unfold parseSRT
    rw [show jsTrim ("" : String).data = [] from rfl]
    unfold splitBlocks
    rw [sb_nil]
    rfl
  · rcases hrhead with hr0 | ⟨c, cs, hrc, hc⟩
    · subst hr0
      have hRHS : parseSRT (String.mk ([] : List Char)) = [] := by
        unfold parseSRT
        rw [show jsTrim (String.mk ([] : List Char)).data = [] from rfl]
        unfold splitBlocks
        rw [sb_nil]
        rfl
      rw [hRHS]
      unfold parseSRT
      rw [show (String.mk (nlJoin lines ++ '\n' :: '\n' :: ([] : List Char))).data
            = nlJoin lines ++ ['\n', '\n'] from rfl]
      rw [jsTrim_append_sep hnlne hhead hlast]
      unfold splitBlocks
      rw [sb_block_final hne hg []]
      simp only [List.reverse_nil, List.nil_append]
      rw [List.filterMap_cons, hpb]
      rfl
    · subst hrc
      unfold parseSRT
      rw [show (String.mk (nlJoin lines ++ '\n' :: '\n' :: c :: cs)).data
            = nlJoin lines ++ '\n' :: '\n' :: c :: cs from rfl]
      rw [show (String.mk (c :: cs)).data = c :: cs from rfl]
      have htr2 : jsTrim (nlJoin lines ++ '\n' :: '\n' :: c :: cs)
          = nlJoin lines ++ '\n' :: '\n' :: c :: cs := by
        apply jsTrim_eq_self
        · intro c0 hc0
          cases hnlc : nlJoin lines with
          | nil => exact absurd hnlc hnlne
          | cons a as =>
            rw [hnlc, List.cons_append, List.head?_cons, Option.some.injEq] at hc0
            cases hc0
            exact hhead c0 (by rw [hnlc]; rfl)
        · intro c0 hc0
          rw [show nlJoin lines ++ '\n' :: '\n' :: c :: cs
                = (nlJoin lines ++ ['\n', '\n']) ++ c :: cs from by
              simp [List.append_assoc]] at hc0
          rw [List.getLast?_append_of_ne_nil _ (by simp)] at hc0
          exact jsTrim_self_last hrtrim c0 hc0
      rw [htr2, hrtrim]
      unfold splitBlocks
      rw [sb_block_sep hne hg hc cs []]
      simp only [List.reverse_nil, List.nil_append]
      rw [List.filterMap_cons, hpb]

section

attribute [local semireducible] Rat.add Rat.mul Rat.inv Rat.sub

/-- C10: parsing the exact two-block scenario string yields exactly the
two entries, with times converted as `h*3600 + m*60 + s + ms/1000`
(5.5 = 11/2, 8.25 = 33/4) and the second text keeping its internal line
break. -/
theorem claim_C10_scenario :
    parseSRT ("1\n00:00:01,000 --> 00:00:04,000\nHello\n\n2\n00:00:05,500 --> 00:00:08,250\nWorld\nLine2" : String) =
      [⟨1, 4, ("Hello" : String)⟩, ⟨11/2, 33/4, ("World\nLine2" : String)⟩] := by
  rw [parseSRT_eq_fuel]
  decide

/-- C2 counterexample to the original claim: `engCex` satisfies all of
the original round-trip conditions (non-overlapping ascending intervals,
millisecond-quantized non-negative times, texts non-empty after trimming
with no whitespace-only line), yet `parseSRT (exportToSRT engCex)` has
one entry where `engCex` has two — a discrepancy no 1ms tolerance can
absorb: the 100-hour end time formats as three hour digits, which the
two-digit timestamp pattern fails to match, so the second block is
dropped; the surviving text also comes back trimmed. -/
theorem claim_C2_roundtrip_counterexample :
    (∀ s ∈ engCex.subtitles,
        MsQuantNoBound s.start ∧ MsQuantNoBound s.stop ∧ TextOkOrig s.text) ∧
    SortedDisjoint engCex.subtitles ∧
    parseSRT (exportToSRT engCex) = [⟨0, 1, ("a" : String)⟩] ∧
    (parseSRT (exportToSRT engCex)).length ≠ engCex.subtitles.length := by
  have h3 : parseSRT (exportToSRT engCex) = [⟨0, 1, ("a" : String)⟩] := by
    rw [parseSRT_eq_fuel]
    decide
  exact ⟨by decide, by decide, h3, by rw [h3]; decide⟩

theorem claim_C2_roundtrip_witness :
    parseSRT (exportToSRT engB) = engB.subtitles :=
  claim_C2_roundtrip engB (by decide) (by decide)

theorem claim_C4_block_shape_witness :
    parseSRT ("1\n00:00:09,000 --> 00:00:10,500\nHi" : String) =
      [⟨9, 21/2, ("Hi" : String)⟩] := by
  have h := claim_C4_block_shape ['1'] ("00:00:09,000 --> 00:00:10,500" : String).data
    [['H', 'i']]
    ⟨['0', '0'], ['0', '0'], ['0', '9'], ['0', '0', '0'],
     ['0', '0'], ['0', '0'], ['1', '0'], ['5', '0', '0']⟩
    (by decide) (by decide) (by decide) (by decide) (by decide)
    (by decide) (by decide) (by decide) (by decide)
  have harg : ("1\n00:00:09,000 --> 00:00:10,500\nHi" : String) =
      String.mk (nlJoin (['1'] :: ("00:00:09,000 --> 00:00:10,500" : String).data
        :: [['H', 'i']])) := by
    decide
  rw [harg, h]
  decide

/-- C4 counterexample to the original claim: a 2-line block whose first
line is the timestamp (no ordinal line precedes it) parses to nothing,
because the source demands at least 3 lines and reads the timestamp only
from the block's second line. -/
theorem claim_C4_counterexample :
    parseSRT ("00:00:01,000 --> 00:00:04,000\nHello" : String) = [] ∧
    parseSRT ("00:00:01,000 --> 00:00:04,000\nHello" : String) ≠
      [⟨1, 4, ("Hello" : String)⟩] := by
  have h : parseSRT ("00:00:01,000 --> 00:00:04,000\nHello" : String) = [] := by
    rw [parseSRT_eq_fuel]
    decide
  exact ⟨h, by rw [h]; decide⟩

theorem claim_C9_graceful_witness :
    parseSRT ("" : String) = [] ∧
    parseSRT (String.mk (nlJoin [['x']] ++ '\n' :: '\n' ::
        ("1\n00:00:01,000 --> 00:00:02,000\nHi" : String).data)) =
      parseSRT (String.mk ("1\n00:00:01,000 --> 00:00:02,000\nHi" : String).data) :=
  claim_C9_graceful [['x']] ("1\n00:00:01,000 --> 00:00:02,000\nHi" : String).data
    (by decide) (by decide) (by decide) (by decide)
    (Or.inr ⟨'1', ("\n00:00:01,000 --> 00:00:02,000\nHi" : String).data,
      by decide, by decide⟩)
    (Or.inl (by decide))

end
